import Mathlib

/-!
Verification of the point-source detection and fitting engine in `dory.py`
(repository `enlib`). Each numbered section shallowly embeds one piece of the
source code and settles one claim about it. Machine floats are idealised as
exact rationals or reals; IEEE NaN, where it matters, is modelled explicitly.
-/

set_option maxHeartbeats 1000000

namespace Dory

/-! ### Section C4: the per-block significance cutoff of `find_srcs`

Embeds the block loop of `find_srcs` (dory.py lines 289-335) at the level of
the cutoff recurrence: the outer code initialises
`sn_lim = np.max(np.abs(fmap/norm)*(apod_map>0))` (the global peak
significance), and each block with component peak significances `sns` runs
  `sn_lim = max(snmin, min(sn_lim, np.max(sn))/snblock)`
  `keep   = np.where(sn >= sn_lim)[0]`
breaking when no components are labelled, when `keep` is empty, or when
`sn_lim <= snmin` after a block. Block contents (the per-component peak
significances produced by thresholding the current filtered map) are inputs
of the model. -/

/-- `np.max` of a nonempty list of rationals (`[]` gives a junk value `0`,
matching no reachable code path: the `nlabel == 0` break fires first). -/
def listMaxQ : List ℚ → ℚ
  | [] => 0
  | a :: l => l.foldl max a

/-- One block of the `find_srcs` block loop: the updated cutoff
`max(snmin, min(sn_lim, np.max(sn))/snblock)` (dory.py line 312). -/
def next_sn_lim (snmin snblock sn_lim blockmax : ℚ) : ℚ :=
  max snmin (min sn_lim blockmax / snblock)

/-- The block loop of `find_srcs`: from the current `sn_lim` and the list of
per-block component significances, produce the list of
(cutoff used, components kept) pairs, honouring the three break conditions
(dory.py lines 290-335). -/
def find_srcs_blocks (snmin snblock : ℚ) : ℚ → List (List ℚ) → List (ℚ × List ℚ)
  | _, [] => []
  | sn_lim, sns :: rest =>
    if sns = [] then []
    else
      let lim := next_sn_lim snmin snblock sn_lim (listMaxQ sns)
      let keep := sns.filter (fun s => lim ≤ s)
      if keep = [] then []
      else (lim, keep) :: (if lim ≤ snmin then [] else find_srcs_blocks snmin snblock lim rest)

/-! ### Section C7: early exit of `fit_src_amps` on an empty weighted region

Embeds the head of `fit_src_amps` (dory.py lines 686-710): the edge-margin
selection of sources, the `nsrc == 0` early return, and the
`np.sum(idiv*apod_map**2) == 0` early return. The remainder of the function
(noise model, templates, the linear system) is abstracted as a continuation
`rest`, which the two early returns never invoke. The sky-to-pixel transform
and the apodization map are external collaborators (enmap) and enter as
already-computed inputs, as in the source. -/

/-- Result quadruple of `fit_src_amps`: surviving indices, amplitudes,
inverse covariance, and local model amplitudes. -/
structure AmpFitResult where
  fit_inds : List ℕ
  amp : List ℚ
  icov : List (List ℚ)
  local_amps : List ℚ
  deriving DecidableEq, Repr

/-- The margin test of `fit_src_amps` (dory.py line 695):
`np.all(src_pix >= margin, 1) & np.all(src_pix < np.array(imap.shape[-2:])-margin, 1)`. -/
def fit_src_amps_inds (h w : ℕ) (src_pix : List (ℚ × ℚ)) (margin : ℚ) : List ℕ :=
  (List.range src_pix.length).filter (fun i =>
    let p := src_pix.getD i (0, 0)
    decide (margin ≤ p.1 ∧ margin ≤ p.2 ∧ p.1 < (h : ℚ) - margin ∧ p.2 < (w : ℚ) - margin))

/-- Head of `fit_src_amps` (dory.py lines 686-710): margin selection, the
`nsrc == 0` return, the apodized-weight emptiness check
`np.sum(idiv*apod_map**2) == 0` with its all-zero return, and otherwise the
continuation `rest` standing for the body of the fit. -/
def fit_src_amps (h w : ℕ) (idiv apod_map : Fin h × Fin w → ℚ)
    (src_pix : List (ℚ × ℚ)) (apod apod_margin : ℚ)
    (rest : List ℕ → List (ℚ × ℚ) → AmpFitResult) : AmpFitResult :=
  let margin := apod + apod_margin
  let fit_inds := fit_src_amps_inds h w src_pix margin
  let nsrc := fit_inds.length
  if nsrc = 0 then ⟨fit_inds, [], [], []⟩
  else if (∑ p : Fin h × Fin w, idiv p * apod_map p ^ 2) = 0 then
    ⟨fit_inds, List.replicate nsrc 0, List.replicate nsrc (List.replicate nsrc 0),
      List.replicate nsrc 0⟩
  else rest fit_inds (fit_inds.map (src_pix.getD · (0, 0)))

/-! ### Section C5: `fit_labeled_srcs`

Embeds `fit_labeled_srcs` (dory.py lines 180-203) for one connected
component `ℓ` of a labelled map. `ndimage.center_of_mass` is the
map-value-weighted mean pixel index; `ndimage.maximum` / `minimum` are the
extrema over the component's pixels; `ndimage.maximum_position` is the first
raster-order pixel attaining the maximum. The fractional-pixel map
evaluation `fmap.at(pos_com, unit="pix")` is the external map collaborator's
spline interpolation and enters as a parameter `interp`; on integer pixel
positions any interpolation reproduces the pixel value. The source also
computes `pos_ext` (minimum position for negative components) but never uses
it for the returned fit: extended components get `pos_max`/`amp_max`. -/

/-- `np.min` of a nonempty list of rationals (`[]` gives a junk value). -/
def listMinQ : List ℚ → ℚ
  | [] => 0
  | a :: l => l.foldl min a

/-- All pixels of an `h` by `w` map in raster (C) order. -/
def rasterList (h w : ℕ) : List (Fin h × Fin w) :=
  (List.finRange h).flatMap fun y => (List.finRange w).map fun x => (y, x)

/-- The pixels of connected component `ℓ`, in raster order. -/
def component (h w : ℕ) (labels : Fin h × Fin w → ℕ) (ℓ : ℕ) : List (Fin h × Fin w) :=
  (rasterList h w).filter (fun p => decide (labels p = ℓ))

/-- `ndimage.center_of_mass(fmap, labels, ℓ)`: the map-value-weighted mean
pixel index of component `ℓ`. -/
def com_pos (h w : ℕ) (fmap : Fin h × Fin w → ℚ) (labels : Fin h × Fin w → ℕ)
    (ℓ : ℕ) : ℚ × ℚ :=
  let comp := component h w labels ℓ
  let mass := (comp.map fmap).sum
  ((comp.map (fun p => fmap p * (p.1.val : ℚ))).sum / mass,
   (comp.map (fun p => fmap p * (p.2.val : ℚ))).sum / mass)

/-- First pixel of a list, as a rational coordinate pair
(`ndimage.maximum_position` tie-breaking: first in raster order). -/
def posFirstQ {h w : ℕ} : List (Fin h × Fin w) → ℚ × ℚ
  | [] => (0, 0)
  | p :: _ => ((p.1.val : ℚ), (p.2.val : ℚ))

/-- A fitted source: pixel position and amplitude. -/
structure SrcFit where
  pos : ℚ × ℚ
  amp : ℚ
  deriving DecidableEq, Repr

/-- `fit_labeled_srcs` (dory.py lines 180-203) for one component: center of
mass position and interpolated amplitude there; extremum amplitude (minimum
for components whose center-of-mass amplitude is negative); the component is
extended when `|amp_ext| > |amp_com| * extended_threshold`; extended
components are assigned the maximum position and amplitude (`pos_max`,
`amp_max` — not the sign-matched extremum), others the center of mass. -/
def fit_labeled_srcs (h w : ℕ) (fmap : Fin h × Fin w → ℚ)
    (labels : Fin h × Fin w → ℕ) (ℓ : ℕ) (interp : ℚ × ℚ → ℚ) (thr : ℚ) : SrcFit :=
  let comp := component h w labels ℓ
  let pos_com := com_pos h w fmap labels ℓ
  let amp_com := interp pos_com
  let amp_max := listMaxQ (comp.map fmap)
  let amp_min := listMinQ (comp.map fmap)
  let pos_max := posFirstQ (comp.filter (fun p => decide (fmap p = amp_max)))
  let amp_ext := if amp_com < 0 then amp_min else amp_max
  let extended := |amp_com| * thr < |amp_ext|
  ⟨if extended then pos_max else pos_com, if extended then amp_max else amp_com⟩

/-- The concrete component map for the C5 counterexample: one row of three
pixels with values `-4, -2, -4`, all carrying label 1. -/
def cexMap : Fin 1 × Fin 3 → ℚ := fun p => if p.2.val = 1 then -2 else -4

/-- Interpolation for the C5 counterexample: the quadratic
`-2 (x-1)^2 - 2` in the column coordinate, which reproduces the three pixel
values at their integer positions. -/
def cexInterp : ℚ × ℚ → ℚ := fun c => -2 * (c.2 - 1) ^ 2 - 2

/-! ### Section C9: `merge_maps_onto`

Embeds the accumulation and final divide of `merge_maps_onto`
(dory.py lines 1064-1092), as executed on the root task: every contributed
map tile is multiplied by its `build_merge_weight` taper and added into
`omap` at its pixel box, the taper alone is added into `odiv`, and at the
end `omap /= odiv` is followed by `np.nan_to_num` (NaN from `0/0` becomes 0;
`±inf` from `x/0`, `x /= 0`, would become `±1.7976931348623157e308`, the
largest double). MPI transport is pure data movement and is elided: the
contribution list is the model input. -/

/-- `build_merge_weight` (dory.py lines 1054-1062): separable triangular
taper `(1 - 2|y-cy|/ny) (1 - 2|x-cx|/nx)` with `cy = (ny-1)/2`,
`cx = (nx-1)/2`. -/
def build_merge_weight (ny nx : ℕ) (p : ℤ × ℤ) : ℚ :=
  (1 - 2 * |(p.1 : ℚ) - ((ny : ℚ) - 1) / 2| / ny) *
    (1 - 2 * |(p.2 : ℚ) - ((nx : ℚ) - 1) / 2| / nx)

/-- One contributed tile: its pixel-box offset in the output map, its shape,
and its values (indexed locally, meaningful on `[0,ny) x [0,nx)`). -/
structure Contrib where
  y0 : ℤ
  x0 : ℤ
  ny : ℕ
  nx : ℕ
  vals : ℤ × ℤ → ℚ

/-- The taper weight a contribution places at global output pixel `p`
(zero outside its pixel box). -/
def contribWeight (c : Contrib) (p : ℤ × ℤ) : ℚ :=
  if c.y0 ≤ p.1 ∧ p.1 < c.y0 + c.ny ∧ c.x0 ≤ p.2 ∧ p.2 < c.x0 + c.nx then
    build_merge_weight c.ny c.nx (p.1 - c.y0, p.2 - c.x0)
  else 0

/-- Accumulated weight `odiv` at pixel `p`. -/
def odiv_sum (cs : List Contrib) (p : ℤ × ℤ) : ℚ :=
  (cs.map (fun c => contribWeight c p)).sum

/-- Accumulated weighted map `omap` at pixel `p` (each tile is inserted as
`imap*idiv`). -/
def omap_sum (cs : List Contrib) (p : ℤ × ℤ) : ℚ :=
  (cs.map (fun c => contribWeight c p * c.vals (p.1 - c.y0, p.2 - c.x0))).sum

/-- Largest IEEE double, the value `np.nan_to_num` substitutes for `inf`. -/
def floatMax : ℚ := (2 ^ 53 - 1) * 2 ^ 971

/-- The final `omap /= odiv` followed by `np.nan_to_num`: `0/0` (NaN) becomes
`0`; a nonzero numerator over zero (`±inf`) would become `±floatMax`. -/
def div_nan_to_num (a b : ℚ) : ℚ :=
  if b = 0 then (if a = 0 then 0 else if 0 < a then floatMax else -floatMax)
  else a / b

/-- The root-task output pixel of `merge_maps_onto`. -/
def merge_maps_onto (cs : List Contrib) (p : ℤ × ℤ) : ℚ :=
  div_nan_to_num (omap_sum cs p) (odiv_sum cs p)

/-! ### Sections C6, C8, C10: `merge_duplicates`

Embeds `merge_duplicates` (dory.py lines 1007-1052). Catalog fields are IEEE
doubles idealised as "NaN or an exact real" (`EV`); the NaN propagation and
comparison semantics of the numpy operations used (`abs`, `max`, `min`, `>=`,
arithmetic, `median`) are modelled exactly, while finite values carry exact
real arithmetic (`inf` from division by zero is conflated with NaN — no claim
exercises that path). The `cKDTree.query_ball_tree` spatial grouping is an
external collaborator: the per-entry duplicate groups enter as an input
`groups`, and the geometric predicate `dupNear` (Euclidean distance of the
cos-declination-scaled positions within `rlim`, after rewinding `ra`)
specifies which `groups` are consistent with the source's tree query. -/

/-- Model of an IEEE double: NaN or an exact real value. -/
inductive EV where
  | nan : EV
  | fin : ℝ → EV

namespace EV

/-- Float addition (NaN propagates). -/
def add : EV → EV → EV
  | fin a, fin b => fin (a + b)
  | _, _ => nan

/-- Float multiplication (NaN propagates). -/
def mul : EV → EV → EV
  | fin a, fin b => fin (a * b)
  | _, _ => nan

/-- Float division (NaN propagates; division by zero conflated with NaN). -/
noncomputable def div : EV → EV → EV
  | fin a, fin b => if b = 0 then nan else fin (a / b)
  | _, _ => nan

/-- `np.abs` (NaN propagates). -/
noncomputable def abs : EV → EV
  | fin a => fin |a|
  | nan => nan

/-- numpy `>=`: false whenever either operand is NaN. -/
def ge : EV → EV → Prop
  | fin a, fin b => b ≤ a
  | _, _ => False

open Classical in
/-- Boolean form of `ge`, for use in filters. -/
noncomputable def geB (a b : EV) : Bool := decide (ge a b)

/-- Binary maximum (`np.max` propagates NaN). -/
noncomputable def max2 : EV → EV → EV
  | fin a, fin b => fin (max a b)
  | _, _ => nan

/-- Binary minimum (`np.min` propagates NaN). -/
noncomputable def min2 : EV → EV → EV
  | fin a, fin b => fin (min a b)
  | _, _ => nan

/-- `np.max` over a list (NaN-propagating; `[]` is an unreachable error path
in the source and gives NaN here). -/
noncomputable def listMax : List EV → EV
  | [] => nan
  | a :: l => l.foldl max2 a

/-- `np.min` over a list. -/
noncomputable def listMin : List EV → EV
  | [] => nan
  | a :: l => l.foldl min2 a

/-- `np.sum` over a list (empty sum is `0`). -/
def sum (l : List EV) : EV := l.foldr add (fin 0)

/-- `damp**-2`, the inverse-variance weight (zero or NaN uncertainty gives a
non-finite weight, conflated with NaN). -/
noncomputable def ivar : EV → EV
  | fin a => if a = 0 then nan else fin ((a ^ 2)⁻¹)
  | nan => nan

/-- The `wmean` helper of `merge_duplicates` (dory.py line 1039):
`np.sum(v*w)/np.sum(w)`. -/
noncomputable def wmean (vals ws : List EV) : EV :=
  div (sum (List.zipWith mul vals ws)) (sum ws)

/-- True iff the value is NaN. -/
def isNan : EV → Bool
  | nan => true
  | fin _ => false

open Classical in
/-- Insertion into a sorted list of reals. -/
noncomputable def insertSorted (x : ℝ) : List ℝ → List ℝ
  | [] => [x]
  | a :: l => if x ≤ a then x :: a :: l else a :: insertSorted x l

/-- Insertion sort on reals (for the median). -/
noncomputable def sortR : List ℝ → List ℝ
  | [] => []
  | a :: l => insertSorted a (sortR l)

/-- `np.median`: NaN if any input is NaN (or the list is empty), otherwise
the middle of the sorted values, or the mean of the two middles. -/
noncomputable def median (l : List EV) : EV :=
  if l.any isNan then nan
  else
    let s := sortR (l.filterMap (fun x => match x with | fin a => some a | nan => none))
    if s = [] then nan
    else if s.length % 2 = 1 then fin (s.getD (s.length / 2) 0)
    else fin ((s.getD (s.length / 2 - 1) 0 + s.getD (s.length / 2) 0) / 2)

end EV

/-- Modelled from the spec: `utils.rewind(a, 0)` (an enlib utility whose
source is not under `src/`) wraps an angle into `[-π, π)`:
`(a + π) mod 2π - π`, i.e. `a` minus the appropriate multiple of `2π`
(spec §3: positions are right ascension/declination in radians, §4.3/§4.5:
the right-ascension axis wraps with period 2π). -/
noncomputable def rewind (x : ℝ) : ℝ :=
  x - 2 * Real.pi * ⌊(x + Real.pi) / (2 * Real.pi)⌋

/-- `rewind` lifted to a possibly-NaN value. -/
noncomputable def rewindEV : EV → EV
  | EV.nan => EV.nan
  | EV.fin a => EV.fin (rewind a)

/-- One catalog entry (`cat_dtype`, dory.py line 5): position, three-component
amplitude/uncertainty and flux/uncertainty vectors, pixel count and status. -/
structure Entry where
  ra : EV
  dec : EV
  amp : Fin 3 → EV
  damp : Fin 3 → EV
  flux : Fin 3 → EV
  dflux : Fin 3 → EV
  npix : EV
  status : EV

instance : Inhabited Entry :=
  ⟨⟨EV.nan, EV.nan, fun _ => EV.nan, fun _ => EV.nan, fun _ => EV.nan,
    fun _ => EV.nan, EV.nan, EV.nan⟩⟩

/-- Merging one duplicate group (dory.py lines 1038-1048): every field is the
inverse-variance-weighted mean with weights `damp[:,0]**-2`; then `damp` is
overwritten by the componentwise minimum over the group and `status` by the
median. -/
noncomputable def mergeEntry (gcat : List Entry) : Entry :=
  let ws := gcat.map (fun e => EV.ivar (e.damp 0))
  { ra := EV.wmean (gcat.map (fun e => e.ra)) ws
    dec := EV.wmean (gcat.map (fun e => e.dec)) ws
    amp := fun k => EV.wmean (gcat.map (fun e => e.amp k)) ws
    damp := fun k => EV.listMin (gcat.map (fun e => e.damp k))
    flux := fun k => EV.wmean (gcat.map (fun e => e.flux k)) ws
    dflux := fun k => EV.wmean (gcat.map (fun e => e.dflux k)) ws
    npix := EV.wmean (gcat.map (fun e => e.npix)) ws
    status := EV.median (gcat.map (fun e => e.status)) }

/-- One iteration of the group loop of `merge_duplicates`
(dory.py lines 1023-1050), carried over a state of (done indices, output
catalog): drop already-done members; keep singleton groups verbatim; for
larger groups select the members within the fractional amplitude tolerance
`alim` of the group's maximum absolute amplitude (NaN comparisons select
nothing), drop the group if none qualify, else append the merged entry and
mark the whole (not-yet-done part of the) group done. -/
noncomputable def mergeStep (cat : List Entry) (alim : ℝ) (st : List ℕ × List Entry)
    (group : List ℕ) : List ℕ × List Entry :=
  let g := group.filter (fun i => !(st.1.contains i))
  match g with
  | [] => st
  | [i] => (i :: st.1, st.2 ++ [cat.getD i default])
  | i :: j :: rest =>
    let g2 := i :: j :: rest
    let M := EV.listMax (g2.map (fun i => EV.abs ((cat.getD i default).amp 0)))
    let good := g2.filter (fun i =>
      EV.geB (EV.abs ((cat.getD i default).amp 0)) (EV.mul M (EV.fin (1 - alim))))
    if good = [] then st
    else (g2 ++ st.1, st.2 ++ [mergeEntry (good.map (fun i => cat.getD i default))])

/-- `merge_duplicates` (dory.py lines 1007-1052): empty catalogs pass
through; otherwise `ra` is rewound into `[-π, π)` and the groups returned by
the (external) ball query are merged in order. -/
noncomputable def merge_duplicates (cat : List Entry) (groups : List (List ℕ))
    (alim : ℝ) : List Entry :=
  match cat with
  | [] => []
  | _ =>
    let cat' := cat.map (fun e => { e with ra := rewindEV e.ra })
    (groups.foldl (mergeStep cat' alim) ([], [])).2

/-- The scaled position the source builds for the ball query
(dory.py line 1018): `(ra·cos dec, dec)` with `ra` rewound; `none` when
either coordinate is NaN (the tree query is then undefined). -/
noncomputable def entryPos (e : Entry) : Option (ℝ × ℝ) :=
  match e.ra, e.dec with
  | EV.fin a, EV.fin d => some (rewind a * Real.cos d, d)
  | _, _ => none

/-- Specification of the `cKDTree.query_ball_tree(tree, rlim)` result used by
`merge_duplicates`: entries `i` and `j` are duplicates when their scaled
positions lie within Euclidean distance `rlim`. -/
def dupNear (cat : List Entry) (rlim : ℝ) (i j : ℕ) : Prop :=
  ∃ xi yi xj yj, entryPos (cat.getD i default) = some (xi, yi) ∧
    entryPos (cat.getD j default) = some (xj, yj) ∧
    Real.sqrt ((xi - xj) ^ 2 + (yi - yj) ^ 2) ≤ rlim

/-- A concrete catalog entry with `ra = 2π` (outside `[-π, π)`), finite
everywhere else (for the C8 counterexample). -/
noncomputable def e2pi : Entry :=
  { ra := EV.fin (2 * Real.pi), dec := EV.fin 0, amp := fun _ => EV.fin 1,
    damp := fun _ => EV.fin 1, flux := fun _ => EV.fin 1, dflux := fun _ => EV.fin 1,
    npix := EV.fin 1, status := EV.fin 0 }

/-- A concrete catalog entry with all coordinates in range (for the C8
witness). -/
noncomputable def eIn : Entry :=
  { ra := EV.fin 0, dec := EV.fin 0, amp := fun _ => EV.fin 1,
    damp := fun _ => EV.fin 1, flux := fun _ => EV.fin 1, dflux := fun _ => EV.fin 1,
    npix := EV.fin 1, status := EV.fin 0 }

/-- First concrete entry for the C6 counterexample: amplitude 1,
uncertainty 1, flux uncertainty 1. -/
noncomputable def ce0 : Entry :=
  { ra := EV.fin 0, dec := EV.fin 0, amp := fun _ => EV.fin 1,
    damp := fun _ => EV.fin 1, flux := fun _ => EV.fin 1, dflux := fun _ => EV.fin 1,
    npix := EV.fin 1, status := EV.fin 0 }

/-- Second concrete entry for the C6 counterexample: same amplitude 1 but
uncertainty 2 and flux uncertainty 2. -/
noncomputable def ce1 : Entry :=
  { ra := EV.fin 0, dec := EV.fin 0, amp := fun _ => EV.fin 1,
    damp := fun _ => EV.fin 2, flux := fun _ => EV.fin 1, dflux := fun _ => EV.fin 2,
    npix := EV.fin 1, status := EV.fin 0 }

/-! ### Sections C2, C3: `group_independent`

Embeds `group_independent` (dory.py lines 392-427). The positions array
(columns `(dec, ra)`) is first rewound coordinatewise by `utils.rewind`;
wrapped copies of the positions with `ra ∓ 2π` are built *before* the
cos-declination scaling `ra *= cos(dec)` is applied to both arrays; the
correlated-neighbor sets come from `cKDTree.query_ball_tree` (all wrapped
copies within Euclidean distance `corrlen` of a point, indices taken mod n),
modelled by the predicate `corrNeighbor`. The partition loop pops candidates
from a Python set of small ints — CPython pops them in increasing order, so
the pool is modelled as a sorted list with head removal — and discards each
popped element's correlated neighbors from the candidate pool. The
combinatorial loops are embedded over an arbitrary Boolean neighbor matrix
`corr`; theorems connect `corr` to `corrNeighbor` by hypothesis. Structural
recursion uses a fuel argument equal to the list length, which filters can
only shrink. -/

/-- The right-ascension wrap shifts `0, -2π, +2π` (dory.py lines 396-398:
`wpos = concatenate([pos, pos - 2π, pos + 2π])`). -/
noncomputable def wrapShifts : List ℝ := [0, -(2 * Real.pi), 2 * Real.pi]

/-- Declination of source `i` after the `utils.rewind` normalization. -/
noncomputable def posDec (pos : List (ℝ × ℝ)) (i : ℕ) : ℝ :=
  rewind (pos.getD i (0, 0)).1

/-- Right ascension of source `i` after the `utils.rewind` normalization. -/
noncomputable def posRa (pos : List (ℝ × ℝ)) (i : ℕ) : ℝ :=
  rewind (pos.getD i (0, 0)).2

/-- The correlated-neighbor relation of `group_independent`
(dory.py lines 392-409): `j` is in `i`'s neighbor set when some `2π`-shifted
copy of `j` lies within `corrlen` of `i` in the Euclidean metric on
`(dec, ra·cos dec)` — the scaling by `cos dec` being applied after the
shift. -/
def corrNeighbor (pos : List (ℝ × ℝ)) (corrlen : ℝ) (i j : ℕ) : Prop :=
  ∃ s ∈ wrapShifts,
    Real.sqrt ((posDec pos i - posDec pos j) ^ 2 +
      (posRa pos i * Real.cos (posDec pos i) -
        (posRa pos j + s) * Real.cos (posDec pos j)) ^ 2) ≤ corrlen

/-- The inner candidate loop of `group_independent` (dory.py lines 417-422):
pop the least candidate, append it to the group, discard its correlated
neighbors from the pool; fuel-structured recursion. -/
def buildGroupF (corr : ℕ → ℕ → Bool) : ℕ → List ℕ → List ℕ
  | 0, _ => []
  | _, [] => []
  | fuel + 1, e :: rest => e :: buildGroupF corr fuel (rest.filter (fun x => !(corr e x)))

/-- The inner candidate loop, started with enough fuel. -/
def buildGroup (corr : ℕ → ℕ → Bool) (l : List ℕ) : List ℕ := buildGroupF corr l.length l

/-- The outer partition loop of `group_independent`
(dory.py lines 412-424): extract one independent group, remove its members
from the remainder, repeat. -/
def groupIndepF (corr : ℕ → ℕ → Bool) : ℕ → List ℕ → List (List ℕ)
  | 0, _ => []
  | _, [] => []
  | fuel + 1, e :: rest =>
    let g := buildGroup corr (e :: rest)
    g :: groupIndepF corr fuel ((e :: rest).filter (fun x => !(g.contains x)))

/-- `group_independent`'s independent-group output, over a Boolean
correlated-neighbor matrix `corr` and the sorted index pool `l`. -/
def group_independent (corr : ℕ → ℕ → Bool) (l : List ℕ) : List (List ℕ) :=
  groupIndepF corr l.length l

/-- The concrete two-source position list for the C2/C3 counterexamples:
source 0 at `(dec, ra) = (π/3, π/2)`, source 1 at `(0, -3π/4)`. -/
noncomputable def posEx : List (ℝ × ℝ) := [(Real.pi / 3, Real.pi / 2), (0, -(3 * Real.pi / 4))]

/-- The Boolean neighbor matrix realised by `posEx` with correlation length 2:
every pair is correlated except that source 1 is *not* in source 0's
neighbor set (while source 0 is in source 1's, through the `-2π` wrap). -/
def corrB : ℕ → ℕ → Bool := fun i j => !(i == 0 && j == 1)

/-! ### Section C1: `build_filter`

Embeds `build_filter` (dory.py lines 155-162) on an `n × m` Fourier grid
(`ZMod n × ZMod m`) with exact real/complex arithmetic. `enmap.fft` and
`enmap.ifft` are the unitary discrete Fourier transform pair (both carry the
`1/sqrt(n·m)` normalization, so they are mutually inverse, as in enmap's
`normalize=True` convention); `.real` is the real part. The source code:
`filter = beam2d/ps`; `m = enmap.ifft(beam2d+0j).real`; `m /= m[0,0]`;
`norm = enmap.ifft(enmap.fft(m)*filter).real[0,0]`; `filter /= norm`. -/

/-- The unit-modulus DFT phase `exp(2π a/N · i)` for an integer numerator. -/
noncomputable def echar (N : ℕ) (a : ℤ) : ℂ :=
  Complex.exp ((2 * Real.pi * a / N : ℝ) * Complex.I)

/-- The 2D inverse-DFT character of the `n × m` grid at frequency `k` and
pixel `x`. -/
noncomputable def ch {n m : ℕ} (k x : ZMod n × ZMod m) : ℂ :=
  echar n ((k.1.val : ℤ) * x.1.val) * echar m ((k.2.val : ℤ) * x.2.val)

/-- The unitary normalization factor `1/sqrt(n·m)` of `enmap.fft`/`ifft`. -/
noncomputable def nfac (n m : ℕ) : ℝ := (Real.sqrt (n * m))⁻¹

/-- `enmap.fft` in the unitary convention. -/
noncomputable def fftC {n m : ℕ} [NeZero n] [NeZero m] (f : ZMod n × ZMod m → ℂ)
    (k : ZMod n × ZMod m) : ℂ :=
  (nfac n m : ℂ) * ∑ x, f x * (starRingEnd ℂ) (ch k x)

/-- `enmap.ifft` in the unitary convention. -/
noncomputable def ifftC {n m : ℕ} [NeZero n] [NeZero m] (g : ZMod n × ZMod m → ℂ)
    (x : ZMod n × ZMod m) : ℂ :=
  (nfac n m : ℂ) * ∑ k, g k * ch k x

/-- The real-space beam image `enmap.ifft(beam2d+0j)` (dory.py line 158). -/
noncomputable def beamIfft {n m : ℕ} [NeZero n] [NeZero m]
    (beam2d : ZMod n × ZMod m → ℝ) (x : ZMod n × ZMod m) : ℂ :=
  ifftC (fun k => (beam2d k : ℂ)) x

/-- The real-space beam template normalized to value 1 at pixel `[0,0]`
(`m /= m[0,0]`, dory.py line 159). -/
noncomputable def beam_template {n m : ℕ} [NeZero n] [NeZero m]
    (beam2d : ZMod n × ZMod m → ℝ) (x : ZMod n × ZMod m) : ℝ :=
  (beamIfft beam2d x).re / (beamIfft beam2d 0).re

/-- `norm = enmap.ifft(enmap.fft(m)*filter).real[0,0]` with
`filter = beam2d/ps` (dory.py line 160). -/
noncomputable def filter_norm {n m : ℕ} [NeZero n] [NeZero m]
    (ps beam2d : ZMod n × ZMod m → ℝ) : ℝ :=
  (ifftC (fun j => fftC (fun x => (beam_template beam2d x : ℂ)) j *
    ((beam2d j / ps j : ℝ) : ℂ)) 0).re

/-- `build_filter` (dory.py lines 155-162): the matched filter `beam2d/ps`,
renormalized by `filter_norm`. -/
noncomputable def build_filter {n m : ℕ} [NeZero n] [NeZero m]
    (ps beam2d : ZMod n × ZMod m → ℝ) (k : ZMod n × ZMod m) : ℝ :=
  (beam2d k / ps k) / filter_norm ps beam2d

/-- The real-space map obtained by convolving the unit-peak beam template by
the returned filter: `enmap.ifft(enmap.fft(m)*filter).real` with the final
filter. -/
noncomputable def filtered_template {n m : ℕ} [NeZero n] [NeZero m]
    (ps beam2d : ZMod n × ZMod m → ℝ) (x : ZMod n × ZMod m) : ℝ :=
  (ifftC (fun j => fftC (fun y => (beam_template beam2d y : ℂ)) j *
    ((build_filter ps beam2d j : ℝ) : ℂ)) x).re

end Dory

namespace Dory

/-! ### Theorems for C4 -/

/-- Helper: every cutoff emitted by the block loop is at least `snmin`. -/
theorem find_srcs_blocks_cutoff_ge (snmin snblock sn0 : ℚ) (blocks : List (List ℚ)) :
    ∀ p ∈ find_srcs_blocks snmin snblock sn0 blocks, snmin ≤ p.1 := by
  induction blocks generalizing sn0 with
  | nil => intro p hp; simp [find_srcs_blocks] at hp
  | cons sns rest ih =>
    intro p hp
    simp only [find_srcs_blocks] at hp
    by_cases h0 : sns = []
    · simp [h0] at hp
    · simp only [if_neg h0] at hp
      by_cases hk : sns.filter (fun s => next_sn_lim snmin snblock sn0 (listMaxQ sns) ≤ s) = []
      · simp [hk] at hp
      · simp only [if_neg hk, List.mem_cons] at hp
        rcases hp with rfl | hp
        · exact le_max_left _ _
        · by_cases hl : next_sn_lim snmin snblock sn0 (listMaxQ sns) ≤ snmin
          · simp [hl] at hp
          · simp only [if_neg hl] at hp
            exact ih _ p hp

/-- Helper: each emitted block keeps a nonempty set of components, each of
which reaches the block's cutoff. -/
theorem find_srcs_blocks_keep_ge (snmin snblock sn0 : ℚ) (blocks : List (List ℚ)) :
    ∀ p ∈ find_srcs_blocks snmin snblock sn0 blocks, p.2 ≠ [] ∧ ∀ s ∈ p.2, p.1 ≤ s := by
  induction blocks generalizing sn0 with
  | nil => intro p hp; simp [find_srcs_blocks] at hp
  | cons sns rest ih =>
    intro p hp
    simp only [find_srcs_blocks] at hp
    by_cases h0 : sns = []
    · simp [h0] at hp
    · simp only [if_neg h0] at hp
      by_cases hk : sns.filter (fun s => next_sn_lim snmin snblock sn0 (listMaxQ sns) ≤ s) = []
      · simp [hk] at hp
      · simp only [if_neg hk, List.mem_cons] at hp
        rcases hp with rfl | hp
        · refine ⟨hk, fun s hs => ?_⟩
          have := List.of_mem_filter hs
          exact of_decide_eq_true this
        · by_cases hl : next_sn_lim snmin snblock sn0 (listMaxQ sns) ≤ snmin
          · simp [hl] at hp
          · simp only [if_neg hl] at hp
            exact ih _ p hp

/-- Helper: the cutoff drops by at least a factor `snblock` from the previous
state (before clamping at `snmin`). -/
theorem next_sn_lim_le (snmin snblock sn_lim bm : ℚ) (hsb : 0 < snblock) :
    next_sn_lim snmin snblock sn_lim bm ≤ max snmin (sn_lim / snblock) := by
  unfold next_sn_lim
  exact max_le_max le_rfl ((div_le_div_iff_of_pos_right hsb).mpr (min_le_left _ _))

/-- Helper: the first emitted cutoff is at most `max snmin (sn0 / snblock)`. -/
theorem find_srcs_blocks_head_le (snmin snblock sn0 : ℚ) (blocks : List (List ℚ))
    (hsb : 0 < snblock) :
    ∀ p ∈ (find_srcs_blocks snmin snblock sn0 blocks).head?,
      p.1 ≤ max snmin (sn0 / snblock) := by
  cases blocks with
  | nil => intro p hp; simp [find_srcs_blocks] at hp
  | cons sns rest =>
    intro p hp
    simp only [find_srcs_blocks] at hp
    by_cases h0 : sns = []
    · simp [h0] at hp
    · simp only [if_neg h0] at hp
      by_cases hk : sns.filter (fun s => next_sn_lim snmin snblock sn0 (listMaxQ sns) ≤ s) = []
      · simp [hk] at hp
      · simp only [if_neg hk, List.head?_cons, Option.mem_def, Option.some.injEq] at hp
        subst hp
        exact next_sn_lim_le snmin snblock sn0 _ hsb

/-- Helper: consecutive cutoffs are linked by a division by at least
`snblock` (clamped at `snmin`). -/
theorem find_srcs_blocks_chain (snmin snblock sn0 : ℚ) (blocks : List (List ℚ))
    (hsb : 0 < snblock) :
    List.Chain' (fun p q : ℚ × List ℚ => q.1 ≤ max snmin (p.1 / snblock))
      (find_srcs_blocks snmin snblock sn0 blocks) := by
  induction blocks generalizing sn0 with
  | nil => simp [find_srcs_blocks]
  | cons sns rest ih =>
    simp only [find_srcs_blocks]
    by_cases h0 : sns = []
    · simp [h0]
    · simp only [if_neg h0]
      by_cases hk : sns.filter (fun s => next_sn_lim snmin snblock sn0 (listMaxQ sns) ≤ s) = []
      · simp [hk]
      · simp only [if_neg hk]
        by_cases hl : next_sn_lim snmin snblock sn0 (listMaxQ sns) ≤ snmin
        · simp [hl]
        · simp only [if_neg hl]
          refine List.chain'_cons'.mpr ⟨?_, ih _⟩
          exact find_srcs_blocks_head_le snmin snblock _ rest hsb

/-- C4 (amended): in the block loop of `find_srcs` the cutoff starts from the
global peak significance `sn0` and is updated each block to
`max(snmin, min(previous, block peak)/snblock)` — a division by (at least)
the factor `snblock` (default 2.5), not an exact halving.  Consequently:
every emitted cutoff is at least the detection floor `snmin`; every block
keeps a nonempty set of components, each of whose peak significances reaches
that block's cutoff; the first cutoff is at most `max snmin (sn0/snblock)`;
and consecutive cutoffs drop by at least the factor `snblock` until clamped
at `snmin`. -/
theorem C4_block_cutoff (snmin snblock sn0 : ℚ) (blocks : List (List ℚ))
    (hsb : 0 < snblock) :
    (∀ p ∈ find_srcs_blocks snmin snblock sn0 blocks,
        snmin ≤ p.1 ∧ p.2 ≠ [] ∧ ∀ s ∈ p.2, p.1 ≤ s) ∧
    (∀ p ∈ (find_srcs_blocks snmin snblock sn0 blocks).head?,
        p.1 ≤ max snmin (sn0 / snblock)) ∧
    List.Chain' (fun p q : ℚ × List ℚ => q.1 ≤ max snmin (p.1 / snblock))
      (find_srcs_blocks snmin snblock sn0 blocks) := by
  refine ⟨fun p hp => ⟨find_srcs_blocks_cutoff_ge snmin snblock sn0 blocks p hp,
      find_srcs_blocks_keep_ge snmin snblock sn0 blocks p hp⟩,
    find_srcs_blocks_head_le snmin snblock sn0 blocks hsb,
    find_srcs_blocks_chain snmin snblock sn0 blocks hsb⟩

/-- Witness for C4: the amended theorem applied at the default parameters
`snmin = 3.5`, `snblock = 2.5`, an initial global peak of `100`, and one
block with a single component of significance `100`. -/
theorem C4_block_cutoff_witness :
    (0 : ℚ) < 5/2 ∧
    ((∀ p ∈ find_srcs_blocks (7/2) (5/2) 100 [[100]],
        (7/2 : ℚ) ≤ p.1 ∧ p.2 ≠ [] ∧ ∀ s ∈ p.2, p.1 ≤ s) ∧
     (∀ p ∈ (find_srcs_blocks (7/2) (5/2) 100 [[100]]).head?,
        p.1 ≤ max (7/2 : ℚ) (100 / (5/2))) ∧
     List.Chain' (fun p q : ℚ × List ℚ => q.1 ≤ max (7/2 : ℚ) (p.1 / (5/2)))
       (find_srcs_blocks (7/2) (5/2) 100 [[100]])) :=
  ⟨by norm_num, C4_block_cutoff (7/2) (5/2) 100 [[100]] (by norm_num)⟩

/-- Counterexample for C4 as stated: with the default parameters
(`snmin = 3.5`, `snblock = 2.5`) and a global peak significance of `100`,
the first block's cutoff is `100/2.5 = 40`, not the halved value
`max(3.5, 100/2) = 50` that the claim asserts. -/
theorem C4_counterexample :
    find_srcs_blocks (7/2) (5/2) 100 [[100]] = [(40, [100])] ∧
      ¬ ((40 : ℚ) = max (7/2) (100 / 2)) := by
  constructor
  · simp [find_srcs_blocks, next_sn_lim, listMaxQ]
    norm_num
  · norm_num

/-! ### Theorems for C7 -/

/-- C7: if the apodized inverse-variance weight sums to zero, `fit_src_amps`
returns immediately — for any continuation `rest` (the body of the fit, which
is never entered) — with the surviving index list and all-zero amplitudes,
inverse covariance, and local model amplitudes, sized by the number of
surviving sources. -/
theorem C7_empty_weight_early_return (h w : ℕ) (idiv apod_map : Fin h × Fin w → ℚ)
    (src_pix : List (ℚ × ℚ)) (apod apod_margin : ℚ)
    (hz : (∑ p : Fin h × Fin w, idiv p * apod_map p ^ 2) = 0) :
    ∀ rest, fit_src_amps h w idiv apod_map src_pix apod apod_margin rest =
      ⟨fit_src_amps_inds h w src_pix (apod + apod_margin),
       List.replicate (fit_src_amps_inds h w src_pix (apod + apod_margin)).length 0,
       List.replicate (fit_src_amps_inds h w src_pix (apod + apod_margin)).length
         (List.replicate (fit_src_amps_inds h w src_pix (apod + apod_margin)).length 0),
       List.replicate (fit_src_amps_inds h w src_pix (apod + apod_margin)).length 0⟩ := by
  intro rest
  unfold fit_src_amps
  by_cases h0 : (fit_src_amps_inds h w src_pix (apod + apod_margin)).length = 0
  · simp [h0]
  · simp [h0, hz]

/-- Witness for C7: a 1-by-1 map with zero inverse-variance weight and one
source inside the (zero) margin; the early return produces one zero
amplitude, a 1-by-1 zero inverse covariance, and one zero local amplitude. -/
theorem C7_empty_weight_early_return_witness :
    ((∑ p : Fin 1 × Fin 1, (fun _ => (0 : ℚ)) p * (fun _ => (1 : ℚ)) p ^ 2) = 0) ∧
    fit_src_amps 1 1 (fun _ => 0) (fun _ => 1) [(0, 0)] 0 0
        (fun _ _ => ⟨[9], [9], [[9]], [9]⟩) =
      ⟨[0], [0], [[0]], [0]⟩ := by
  refine ⟨by simp, ?_⟩
  have h := C7_empty_weight_early_return 1 1 (fun _ => 0) (fun _ => 1) [(0, 0)] 0 0
    (by simp) (fun _ _ => ⟨[9], [9], [[9]], [9]⟩)
  rw [h]
  have hinds : fit_src_amps_inds 1 1 [(0, 0)] (0 + 0) = [0] := by
    norm_num [fit_src_amps_inds, List.range_succ]
  rw [hinds]
  rfl

/-! ### Theorems for C5 -/

/-- Helper: anything equal to the accumulator or in the list is bounded by
the max fold. -/
theorem le_foldl_max (l : List ℚ) : ∀ a x, (x = a ∨ x ∈ l) → x ≤ l.foldl max a := by
  induction l with
  | nil =>
    rintro a x (rfl | hx)
    · simp
    · simp at hx
  | cons b l ih =>
    rintro a x (rfl | hx)
    · exact le_trans (le_max_left _ _) (ih (max x b) _ (Or.inl rfl))
    · rcases List.mem_cons.mp hx with rfl | hx
      · exact le_trans (le_max_right _ _) (ih (max a x) _ (Or.inl rfl))
      · exact ih (max a b) x (Or.inr hx)

/-- Helper: the max fold returns the accumulator or a list element. -/
theorem foldl_max_mem (l : List ℚ) : ∀ a, l.foldl max a = a ∨ l.foldl max a ∈ l := by
  induction l with
  | nil => intro a; exact Or.inl rfl
  | cons b l ih =>
    intro a
    rcases ih (max a b) with h | h
    · rcases max_choice a b with hab | hab
      · exact Or.inl (by rw [List.foldl_cons, h, hab])
      · exact Or.inr (by rw [List.foldl_cons, h, hab]; exact List.mem_cons_self _ _)
    · exact Or.inr (List.mem_cons_of_mem _ h)

/-- Helper: `listMaxQ` of a nonempty list is an element of the list. -/
theorem listMaxQ_mem (l : List ℚ) (hl : l ≠ []) : listMaxQ l ∈ l := by
  cases l with
  | nil => exact absurd rfl hl
  | cons a l =>
    rcases foldl_max_mem l a with h | h
    · have ha : listMaxQ (a :: l) = a := h
      rw [ha]; exact List.mem_cons_self _ _
    · exact List.mem_cons_of_mem _ h

/-- Helper: `listMaxQ` bounds every element of the list. -/
theorem le_listMaxQ (l : List ℚ) : ∀ x ∈ l, x ≤ listMaxQ l := by
  cases l with
  | nil => intro x hx; simp at hx
  | cons a l =>
    intro x hx
    rcases List.mem_cons.mp hx with h | h
    · subst h; exact le_foldl_max l x x (Or.inl rfl)
    · exact le_foldl_max l a x (Or.inr h)

/-- C5 (amended): for a nonempty component, `fit_labeled_srcs` classifies it
as extended exactly when the extremum amplitude (the component minimum when
the center-of-mass amplitude is negative, the maximum otherwise) exceeds the
center-of-mass amplitude in absolute value by more than the factor `thr`;
for extended components the returned amplitude is the component *maximum*
(also for negative components: largest map value over the component, at its
first raster-order position), while non-extended components get the
center-of-mass position and its interpolated amplitude. -/
theorem C5_fit_classification (h w : ℕ) (fmap : Fin h × Fin w → ℚ)
    (labels : Fin h × Fin w → ℕ) (ℓ : ℕ) (interp : ℚ × ℚ → ℚ) (thr : ℚ)
    (hne : component h w labels ℓ ≠ []) :
    ((|interp (com_pos h w fmap labels ℓ)| * thr <
        |if interp (com_pos h w fmap labels ℓ) < 0 then
            listMinQ ((component h w labels ℓ).map fmap)
          else listMaxQ ((component h w labels ℓ).map fmap)|) →
      (fit_labeled_srcs h w fmap labels ℓ interp thr).amp =
          listMaxQ ((component h w labels ℓ).map fmap) ∧
      (∀ a ∈ (component h w labels ℓ).map fmap,
          a ≤ (fit_labeled_srcs h w fmap labels ℓ interp thr).amp) ∧
      (∃ p ∈ component h w labels ℓ,
          ((p.1.val : ℚ), (p.2.val : ℚ)) = (fit_labeled_srcs h w fmap labels ℓ interp thr).pos ∧
          fmap p = (fit_labeled_srcs h w fmap labels ℓ interp thr).amp)) ∧
    (¬ (|interp (com_pos h w fmap labels ℓ)| * thr <
        |if interp (com_pos h w fmap labels ℓ) < 0 then
            listMinQ ((component h w labels ℓ).map fmap)
          else listMaxQ ((component h w labels ℓ).map fmap)|) →
      (fit_labeled_srcs h w fmap labels ℓ interp thr).amp =
          interp (com_pos h w fmap labels ℓ) ∧
      (fit_labeled_srcs h w fmap labels ℓ interp thr).pos =
          com_pos h w fmap labels ℓ) := by
  constructor
  · intro hext
    have hamp : (fit_labeled_srcs h w fmap labels ℓ interp thr).amp =
        listMaxQ ((component h w labels ℓ).map fmap) := by
      simp only [fit_labeled_srcs]
      rw [if_pos hext]
    refine ⟨hamp, ?_, ?_⟩
    · intro a ha; rw [hamp]; exact le_listMaxQ _ a ha
    · -- the maximum is attained, and pos_max is its first raster position
      have hmem : listMaxQ ((component h w labels ℓ).map fmap) ∈
          (component h w labels ℓ).map fmap :=
        listMaxQ_mem _ (by simpa using hne)
      rcases List.mem_map.mp hmem with ⟨q0, hq0, hfq0⟩
      have hflt : (component h w labels ℓ).filter
          (fun p => decide (fmap p = listMaxQ ((component h w labels ℓ).map fmap))) ≠ [] := by
        intro hcon
        have hq0' : q0 ∈ (component h w labels ℓ).filter
            (fun p => decide (fmap p = listMaxQ ((component h w labels ℓ).map fmap))) :=
          List.mem_filter.mpr ⟨hq0, decide_eq_true hfq0⟩
        rw [hcon] at hq0'
        exact absurd hq0' (List.not_mem_nil q0)
      cases hfl : (component h w labels ℓ).filter
          (fun p => decide (fmap p = listMaxQ ((component h w labels ℓ).map fmap))) with
      | nil => exact absurd hfl hflt
      | cons q t =>
        have hqmem : q ∈ (component h w labels ℓ).filter
            (fun p => decide (fmap p = listMaxQ ((component h w labels ℓ).map fmap))) := by
          rw [hfl]; exact List.mem_cons_self _ _
        have hq := List.mem_filter.mp hqmem
        have hpos : (fit_labeled_srcs h w fmap labels ℓ interp thr).pos =
            ((q.1.val : ℚ), (q.2.val : ℚ)) := by
          simp only [fit_labeled_srcs]
          rw [if_pos hext, hfl]
          rfl
        exact ⟨q, hq.1, hpos.symm, by rw [hamp]; exact of_decide_eq_true hq.2⟩
  · intro hext
    constructor
    · simp only [fit_labeled_srcs]
      rw [if_neg hext]
    · simp only [fit_labeled_srcs]
      rw [if_neg hext]

/-- Witness for C5: a uniform 1-by-1 component with value 5 and an
interpolation that reproduces it; the component is not extended and the
center-of-mass fit is returned. -/
theorem C5_fit_classification_witness :
    (component 1 1 (fun _ => 1) 1 ≠ []) ∧
    ((|(fun (_ : ℚ × ℚ) => (5:ℚ)) (com_pos 1 1 (fun _ => (5:ℚ)) (fun _ => 1) 1)| * (11/10) <
        |if (fun (_ : ℚ × ℚ) => (5:ℚ)) (com_pos 1 1 (fun _ => (5:ℚ)) (fun _ => 1) 1) < 0 then
            listMinQ ((component 1 1 (fun _ => 1) 1).map (fun _ => (5:ℚ)))
          else listMaxQ ((component 1 1 (fun _ => 1) 1).map (fun _ => (5:ℚ)))|) →
      (fit_labeled_srcs 1 1 (fun _ => (5:ℚ)) (fun _ => 1) 1 (fun _ => 5) (11/10)).amp =
          listMaxQ ((component 1 1 (fun _ => 1) 1).map (fun _ => (5:ℚ))) ∧
      (∀ a ∈ (component 1 1 (fun _ => 1) 1).map (fun _ => (5:ℚ)),
          a ≤ (fit_labeled_srcs 1 1 (fun _ => (5:ℚ)) (fun _ => 1) 1 (fun _ => 5) (11/10)).amp) ∧
      (∃ p ∈ component 1 1 (fun _ => 1) 1,
          ((p.1.val : ℚ), (p.2.val : ℚ)) =
            (fit_labeled_srcs 1 1 (fun _ => (5:ℚ)) (fun _ => 1) 1 (fun _ => 5) (11/10)).pos ∧
          (fun _ => (5:ℚ)) p =
            (fit_labeled_srcs 1 1 (fun _ => (5:ℚ)) (fun _ => 1) 1 (fun _ => 5) (11/10)).amp)) ∧
    (¬ (|(fun (_ : ℚ × ℚ) => (5:ℚ)) (com_pos 1 1 (fun _ => (5:ℚ)) (fun _ => 1) 1)| * (11/10) <
        |if (fun (_ : ℚ × ℚ) => (5:ℚ)) (com_pos 1 1 (fun _ => (5:ℚ)) (fun _ => 1) 1) < 0 then
            listMinQ ((component 1 1 (fun _ => 1) 1).map (fun _ => (5:ℚ)))
          else listMaxQ ((component 1 1 (fun _ => 1) 1).map (fun _ => (5:ℚ)))|) →
      (fit_labeled_srcs 1 1 (fun _ => (5:ℚ)) (fun _ => 1) 1 (fun _ => 5) (11/10)).amp =
          (fun (_ : ℚ × ℚ) => (5:ℚ)) (com_pos 1 1 (fun _ => (5:ℚ)) (fun _ => 1) 1) ∧
      (fit_labeled_srcs 1 1 (fun _ => (5:ℚ)) (fun _ => 1) 1 (fun _ => 5) (11/10)).pos =
          com_pos 1 1 (fun _ => (5:ℚ)) (fun _ => 1) 1) :=
  ⟨by decide,
   C5_fit_classification 1 1 (fun _ => 5) (fun _ => 1) 1 (fun _ => 5) (11/10) (by decide)⟩

/-- Counterexample for C5 as stated: on the component `-4, -2, -4` the
center-of-mass amplitude is `-2 < 0`, the extremum used for classification is
the minimum `-4`, and the component is classified extended
(`4 > 2 * 1.1`); the claim then demands the peak extremum `-4` (the minimum
for a negative component) as returned amplitude, but `fit_labeled_srcs`
returns the component maximum `-2`. -/
theorem C5_counterexample :
    cexInterp (com_pos 1 3 cexMap (fun _ => 1) 1) = -2 ∧
    cexInterp (com_pos 1 3 cexMap (fun _ => 1) 1) < 0 ∧
    listMinQ ((component 1 3 (fun _ => 1) 1).map cexMap) = -4 ∧
    |cexInterp (com_pos 1 3 cexMap (fun _ => 1) 1)| * (11/10) <
      |listMinQ ((component 1 3 (fun _ => 1) 1).map cexMap)| ∧
    (fit_labeled_srcs 1 3 cexMap (fun _ => 1) 1 cexInterp (11/10)).amp = -2 ∧
    (fit_labeled_srcs 1 3 cexMap (fun _ => 1) 1 cexInterp (11/10)).amp ≠
      listMinQ ((component 1 3 (fun _ => 1) 1).map cexMap) := by
  have hcomp : component 1 3 (fun _ => 1) 1 = [(0, 0), (0, 1), (0, 2)] := by decide
  have hmap : (component 1 3 (fun _ => 1) 1).map cexMap = [-4, -2, -4] := by
    rw [hcomp]; norm_num [cexMap]
  have hcom : com_pos 1 3 cexMap (fun _ => 1) 1 = (0, 1) := by
    simp only [com_pos, hcomp]
    norm_num [cexMap]
  have hic : cexInterp (com_pos 1 3 cexMap (fun _ => 1) 1) = -2 := by
    rw [hcom]; norm_num [cexInterp]
  have hmin : listMinQ ((component 1 3 (fun _ => 1) 1).map cexMap) = -4 := by
    rw [hmap]; norm_num [listMinQ]
  have hmax : listMaxQ ((component 1 3 (fun _ => 1) 1).map cexMap) = -2 := by
    rw [hmap]; norm_num [listMaxQ]
  have hamp : (fit_labeled_srcs 1 3 cexMap (fun _ => 1) 1 cexInterp (11/10)).amp = -2 := by
    simp only [fit_labeled_srcs]
    rw [hic, hmin, hmax]
    norm_num
  refine ⟨hic, by rw [hic]; norm_num, hmin, by rw [hic, hmin]; norm_num, hamp, ?_⟩
  rw [hamp, hmin]; norm_num

/-! ### Theorems for C10 -/

/-- Helper: NaN absorbs on the left under `np.max` folding. -/
theorem max2_nan_left (x : EV) : EV.max2 EV.nan x = EV.nan := by
  cases x <;> rfl

/-- Helper: folding `np.max` from a NaN accumulator stays NaN. -/
theorem foldl_max2_nan (l : List EV) : l.foldl EV.max2 EV.nan = EV.nan := by
  induction l with
  | nil => rfl
  | cons x l ih => rw [List.foldl_cons, max2_nan_left, ih]

/-- Helper: nothing is `>=` NaN. -/
theorem geB_nan_right (x : EV) : EV.geB x EV.nan = false := by
  cases x <;> simp [EV.geB, EV.ge]

/-- Helper: a group whose members all have NaN leading amplitude leaves the
merge state untouched (the group is dropped). -/
theorem mergeStep_nan (cat' : List Entry) (alim : ℝ) (g : List ℕ)
    (hg2 : 2 ≤ g.length)
    (hnan' : ∀ i ∈ g, (cat'.getD i default).amp 0 = EV.nan) :
    mergeStep cat' alim ([], []) g = ([], []) := by
  cases g with
  | nil => simp at hg2
  | cons i t =>
    cases t with
    | nil => simp at hg2
    | cons j rest =>
      have hfil : (i :: j :: rest).filter (fun n => !(([] : List ℕ).contains n)) =
          i :: j :: rest := by simp
      have hM : EV.listMax ((i :: j :: rest).map
          (fun n => EV.abs ((cat'.getD n default).amp 0))) = EV.nan := by
        rw [List.map_cons, hnan' i (List.mem_cons_self _ _)]
        show EV.listMax (EV.nan :: _) = EV.nan
        rw [EV.listMax]
        exact foldl_max2_nan _
      have hgood : (i :: j :: rest).filter (fun n =>
          EV.geB (EV.abs ((cat'.getD n default).amp 0))
            (EV.mul (EV.listMax ((i :: j :: rest).map
              (fun n => EV.abs ((cat'.getD n default).amp 0)))) (EV.fin (1 - alim)))) = [] := by
        rw [hM]
        apply List.filter_eq_nil_iff.mpr
        intro n hn
        rw [hnan' n hn]
        simp [EV.mul, geB_nan_right]
      simp only [mergeStep, hfil]
      rw [if_pos hgood]

/-- Helper: folding groups that each leave the state untouched gives the
initial state. -/
theorem foldl_mergeStep_id (cat' : List Entry) (alim : ℝ) (gs : List (List ℕ))
    (h : ∀ g ∈ gs, mergeStep cat' alim ([], []) g = ([], [])) :
    gs.foldl (mergeStep cat' alim) ([], []) = ([], []) := by
  induction gs with
  | nil => rfl
  | cons g gs ih =>
    rw [List.foldl_cons, h g (List.mem_cons_self _ _)]
    exact ih (fun g' hg' => h g' (List.mem_cons_of_mem _ hg'))

/-- C10: when every entry of the catalog has NaN leading amplitude and every
ball-query group has at least two members (the duplicate situation of the
claim), the amplitude-tolerance filter selects nothing in any group —
`np.abs(amps) >= np.max(np.abs(amps))*(1-alim)` is everywhere false on NaNs —
so every group is silently dropped and the merged catalog is empty: the
output has fewer entries than there are distinct sources in the input. -/
theorem C10_all_nan_group_dropped (cat : List Entry) (groups : List (List ℕ)) (alim : ℝ)
    (hnan : ∀ e ∈ cat, e.amp 0 = EV.nan)
    (hlen : ∀ g ∈ groups, 2 ≤ g.length)
    (hidx : ∀ g ∈ groups, ∀ i ∈ g, i < cat.length) :
    merge_duplicates cat groups alim = [] := by
  cases hc : cat with
  | nil => simp [merge_duplicates]
  | cons e0 crest =>
    subst hc
    show (groups.foldl
      (mergeStep ((e0 :: crest).map (fun e => { e with ra := rewindEV e.ra })) alim)
      ([], [])).2 = []
    rw [foldl_mergeStep_id]
    intro g hg
    apply mergeStep_nan _ alim g (hlen g hg)
    intro i hi
    have hilt : i < (e0 :: crest).length := hidx g hg i hi
    have hilt' : i < ((e0 :: crest).map (fun e => { e with ra := rewindEV e.ra })).length := by
      simpa using hilt
    rw [List.getD_eq_getElem _ _ hilt', List.getElem_map]
    exact hnan ((e0 :: crest).get ⟨i, hilt⟩) (List.get_mem _ _ hilt)

/-- Witness for C10: two entries with NaN amplitudes at the same position,
each ball-query group containing both; the merged catalog is empty. -/
theorem C10_all_nan_group_dropped_witness :
    (∀ e ∈ [(default : Entry), default], e.amp 0 = EV.nan) ∧
    (∀ g ∈ [[0, 1], [0, 1]], 2 ≤ g.length) ∧
    (∀ g ∈ [[0, 1], [0, 1]], ∀ i ∈ g, i < [(default : Entry), default].length) ∧
    merge_duplicates [(default : Entry), default] [[0, 1], [0, 1]] (1 / 4) = [] := by
  refine ⟨?_, ?_, ?_, ?_⟩
  · intro e he
    rcases List.mem_cons.mp he with h | h
    · rw [h]; rfl
    · rcases List.mem_cons.mp h with h' | h'
      · rw [h']; rfl
      · simp at h'
  · intro g hg
    rcases List.mem_cons.mp hg with h | h
    · rw [h]; simp
    · rcases List.mem_cons.mp h with h' | h'
      · rw [h']; simp
      · simp at h'
  · intro g hg i hi
    rcases List.mem_cons.mp hg with h | h
    · subst h; rcases List.mem_cons.mp hi with h' | h'
      · subst h'; simp
      · rcases List.mem_cons.mp h' with h'' | h''
        · subst h''; simp
        · simp at h''
    · rcases List.mem_cons.mp h with h1 | h1
      · subst h1
        rcases List.mem_cons.mp hi with h' | h'
        · subst h'; simp
        · rcases List.mem_cons.mp h' with h'' | h''
          · subst h''; simp
          · simp at h''
      · simp at h1
  · apply C10_all_nan_group_dropped
    · intro e he
      rcases List.mem_cons.mp he with h | h
      · rw [h]; rfl
      · rcases List.mem_cons.mp h with h' | h'
        · rw [h']; rfl
        · simp at h'
    · intro g hg
      rcases List.mem_cons.mp hg with h | h
      · rw [h]; simp
      · rcases List.mem_cons.mp h with h' | h'
        · rw [h']; simp
        · simp at h'
    · intro g hg i hi
      rcases List.mem_cons.mp hg with h | h
      · subst h; rcases List.mem_cons.mp hi with h' | h'
        · subst h'; simp
        · rcases List.mem_cons.mp h' with h'' | h''
          · subst h''; simp
          · simp at h''
      · rcases List.mem_cons.mp h with h1 | h1
        · subst h1
          rcases List.mem_cons.mp hi with h' | h'
          · subst h'; simp
          · rcases List.mem_cons.mp h' with h'' | h''
            · subst h''; simp
            · simp at h''
        · simp at h1

/-! ### Theorems for C8 -/

/-- Helper: an angle already in `[-π, π)` is fixed by `rewind`. -/
theorem rewind_eq_self (x : ℝ) (h1 : -Real.pi ≤ x) (h2 : x < Real.pi) :
    rewind x = x := by
  have hpi : 0 < Real.pi := Real.pi_pos
  have hfl : ⌊(x + Real.pi) / (2 * Real.pi)⌋ = 0 := by
    rw [Int.floor_eq_zero_iff]
    constructor
    · exact div_nonneg (by linarith) (by linarith)
    · rw [div_lt_one (by linarith)]
      linarith
  unfold rewind
  rw [hfl]
  simp

/-- Helper: every entry with finite coordinates is a duplicate of itself
(distance zero) for any nonnegative match radius. -/
theorem dupNear_self (cat : List Entry) (rlim : ℝ) (i : ℕ) (hrlim : 0 ≤ rlim)
    (a d : ℝ) (hra : (cat.getD i default).ra = EV.fin a)
    (hdec : (cat.getD i default).dec = EV.fin d) :
    dupNear cat rlim i i := by
  refine ⟨rewind a * Real.cos d, d, rewind a * Real.cos d, d, ?_, ?_, ?_⟩
  · unfold entryPos; rw [hra, hdec]
  · unfold entryPos; rw [hra, hdec]
  · simpa using hrlim

/-- Helper: a duplicate-free list whose membership is exactly `{a}` is the
singleton `[a]`. -/
theorem eq_singleton_of_mem_iff {l : List ℕ} (a : ℕ) (hnd : l.Nodup)
    (h : ∀ j, j ∈ l ↔ j = a) : l = [a] := by
  cases l with
  | nil => exact absurd ((h a).mpr rfl) (List.not_mem_nil a)
  | cons b t =>
    have hb : b = a := (h b).mp (List.mem_cons_self _ _)
    subst hb
    cases t with
    | nil => rfl
    | cons c u =>
      have hc : c = b := (h c).mp (List.mem_cons_of_mem _ (List.mem_cons_self _ _))
      subst hc
      exact absurd (List.mem_cons_self _ _) (List.nodup_cons.mp hnd).1

/-- Helper: processing the singleton group `[i]` of a not-yet-done index
appends entry `i` verbatim and marks it done. -/
theorem mergeStep_singleton (cat' : List Entry) (alim : ℝ) (done : List ℕ)
    (out : List Entry) (i : ℕ) (hfresh : done.contains i = false) :
    mergeStep cat' alim (done, out) [i] = (i :: done, out ++ [cat'.getD i default]) := by
  have hmem : i ∉ done := by simpa using hfresh
  have hfil : [i].filter (fun n => !(done.contains n)) = [i] := by
    simp [List.filter, hmem]
  simp only [mergeStep]
  rw [hfil]

/-- Helper: folding a run of fresh singleton groups copies the entries in
order and marks them done. -/
theorem foldl_mergeStep_singletons (cat' : List Entry) (alim : ℝ) (inds : List ℕ) :
    ∀ (done : List ℕ) (out : List Entry),
      (∀ i ∈ inds, done.contains i = false) → inds.Nodup →
      (inds.map (fun i => [i])).foldl (mergeStep cat' alim) (done, out) =
        (inds.reverse ++ done, out ++ inds.map (fun i => cat'.getD i default)) := by
  induction inds with
  | nil => intro done out _ _; simp
  | cons i t ih =>
    intro done out hfresh hnodup
    rw [List.map_cons, List.foldl_cons,
      mergeStep_singleton cat' alim done out i (hfresh i (List.mem_cons_self _ _))]
    rw [ih (i :: done) (out ++ [cat'.getD i default]) ?_ (List.nodup_cons.mp hnodup).2]
    · simp
    · intro j hj
      have hji : j ≠ i := by
        intro hcon
        subst hcon
        exact (List.nodup_cons.mp hnodup).1 hj
      have hjd : j ∉ done := by simpa using hfresh j (List.mem_cons_of_mem _ hj)
      simp [List.contains_cons, hji, hjd]

/-- Helper: reading a list back by index reproduces it. -/
theorem map_getD_range (l : List Entry) :
    (List.range l.length).map (fun i => l.getD i default) = l := by
  apply List.ext_getElem
  · simp
  · intro k h1 h2
    simp only [List.getElem_map, List.getElem_range]
    rw [List.getD_eq_getElem _ _ h2]

/-- C8 (amended): on a catalog in which no two distinct entries are within
the match radius of each other (in the scaled metric the source queries), the
ball-query groups are exactly the singletons, and `merge_duplicates` returns
every entry unchanged, in order, except that `ra` is rewound into `[-π, π)`;
in particular the catalog is returned verbatim whenever every `ra` already
lies in `[-π, π)`. -/
theorem C8_merge_nodup_id (cat : List Entry) (groups : List (List ℕ)) (alim rlim : ℝ)
    (hfin : ∀ e ∈ cat, ∃ a d, e.ra = EV.fin a ∧ e.dec = EV.fin d)
    (hrlim : 0 ≤ rlim)
    (hsep : ∀ i j, i < cat.length → j < cat.length → i ≠ j → ¬ dupNear cat rlim i j)
    (hglen : groups.length = cat.length)
    (hgnodup : ∀ gi, gi < cat.length → (groups.getD gi []).Nodup)
    (hgmem : ∀ gi, gi < cat.length → ∀ j,
      j ∈ groups.getD gi [] ↔ (j < cat.length ∧ dupNear cat rlim gi j)) :
    merge_duplicates cat groups alim = cat.map (fun e => { e with ra := rewindEV e.ra }) ∧
    ((∀ e ∈ cat, ∀ a, e.ra = EV.fin a → -Real.pi ≤ a ∧ a < Real.pi) →
      merge_duplicates cat groups alim = cat) := by
  have hgi : ∀ gi, gi < cat.length → groups.getD gi [] = [gi] := by
    intro gi hgilt
    apply eq_singleton_of_mem_iff gi (hgnodup gi hgilt)
    intro j
    rw [hgmem gi hgilt j]
    constructor
    · rintro ⟨hjlt, hdup⟩
      by_contra hne
      exact hsep gi j hgilt hjlt (fun hcon => hne hcon.symm) hdup
    · rintro rfl
      refine ⟨hgilt, ?_⟩
      have hmem : cat.getD j default ∈ cat := by
        rw [List.getD_eq_getElem _ _ hgilt]
        exact List.get_mem _ _ hgilt
      obtain ⟨a, d, hra, hdec⟩ := hfin _ hmem
      exact dupNear_self cat rlim j hrlim a d hra hdec
  have hgroups : groups = (List.range cat.length).map (fun i => [i]) := by
    apply List.ext_getElem
    · simp [hglen]
    · intro k h1 h2
      have hk : k < cat.length := by simpa using h2
      rw [← List.getD_eq_getElem groups [] h1, hgi k hk]
      simp only [List.getElem_map, List.getElem_range]
  have hmain : merge_duplicates cat groups alim =
      cat.map (fun e => { e with ra := rewindEV e.ra }) := by
    cases hc : cat with
    | nil =>
      subst hc
      simp [merge_duplicates]
    | cons e0 crest =>
      have hcat' : ((e0 :: crest).map (fun e => { e with ra := rewindEV e.ra })).length =
          (e0 :: crest).length := by simp
      subst hc
      show (groups.foldl
        (mergeStep ((e0 :: crest).map (fun e => { e with ra := rewindEV e.ra })) alim)
        ([], [])).2 = (e0 :: crest).map (fun e => { e with ra := rewindEV e.ra })
      rw [hgroups]
      rw [foldl_mergeStep_singletons _ alim (List.range (e0 :: crest).length) [] []
        (fun i _ => rfl) (List.nodup_range _)]
      show ([] : List Entry) ++ _ = _
      rw [List.nil_append]
      have := map_getD_range ((e0 :: crest).map (fun e => { e with ra := rewindEV e.ra }))
      rw [hcat'] at this
      exact this
  refine ⟨hmain, fun hrange => ?_⟩
  rw [hmain]
  have hid : ∀ e ∈ cat, { e with ra := rewindEV e.ra } = e := by
    intro e he
    obtain ⟨a, d, hra, _⟩ := hfin e he
    obtain ⟨hlo, hhi⟩ := hrange e he a hra
    have : rewindEV e.ra = e.ra := by
      rw [hra]
      show EV.fin (rewind a) = EV.fin a
      rw [rewind_eq_self a hlo hhi]
    rw [this]
  calc cat.map (fun e => { e with ra := rewindEV e.ra })
      = cat.map id := List.map_congr_left (fun e he => hid e he)
    _ = cat := List.map_id cat

/-- Helper: `rewind` maps `2π` to `0`. -/
theorem rewind_two_pi : rewind (2 * Real.pi) = 0 := by
  unfold rewind
  have heq : (2 * Real.pi + Real.pi) / (2 * Real.pi) = 3 / 2 := by
    rw [div_eq_iff (by positivity : (2 : ℝ) * Real.pi ≠ 0)]
    ring
  have hfl : ⌊(2 * Real.pi + Real.pi) / (2 * Real.pi)⌋ = 1 := by
    rw [heq, Int.floor_eq_iff]
    norm_num
  rw [hfl]
  push_cast
  ring

/-- Counterexample for C8 as stated: the one-entry catalog `[e2pi]` contains
no duplicates, its ball-query group list is the consistent `[[0]]`, yet
`merge_duplicates` does not return the entry with all fields unchanged: the
`ra` field comes back rewound to `0 ≠ 2π`. -/
theorem C8_counterexample :
    (∀ i j, i < 1 → j < 1 → i ≠ j → ¬ dupNear [e2pi] 0 i j) ∧
    (∀ j, j ∈ [0] ↔ (j < 1 ∧ dupNear [e2pi] 0 0 j)) ∧
    merge_duplicates [e2pi] [[0]] (1 / 4) = [{ e2pi with ra := EV.fin 0 }] ∧
    EV.fin (2 * Real.pi) ≠ EV.fin 0 := by
  have hdup00 : dupNear [e2pi] 0 0 0 :=
    dupNear_self [e2pi] 0 0 le_rfl (2 * Real.pi) 0 rfl rfl
  refine ⟨?_, ?_, ?_, ?_⟩
  · intro i j hi hj hne
    interval_cases i <;> interval_cases j <;> exact absurd rfl hne
  · intro j
    constructor
    · intro hj
      rcases List.mem_cons.mp hj with rfl | hj'
      · exact ⟨by norm_num, hdup00⟩
      · simp at hj'
    · rintro ⟨hj, _⟩
      interval_cases j
      exact List.mem_cons_self _ _
  · have hstep : merge_duplicates [e2pi] [[0]] (1 / 4) =
        [{ e2pi with ra := rewindEV e2pi.ra }] := by
      show (([[0]] : List (List ℕ)).foldl
        (mergeStep ([e2pi].map (fun e => { e with ra := rewindEV e.ra })) (1 / 4))
        ([], [])).2 = _
      rw [List.foldl_cons, mergeStep_singleton _ _ [] [] 0 rfl]
      rfl
    rw [hstep]
    have hra : rewindEV e2pi.ra = EV.fin 0 := by
      show EV.fin (rewind (2 * Real.pi)) = EV.fin 0
      rw [rewind_two_pi]
    rw [hra]
  · intro hcon
    have h2 : 2 * Real.pi = 0 := by injection hcon
    have := Real.pi_ne_zero
    apply this
    linarith

/-- Witness for C8: the amended theorem applied to the duplicate-free
one-entry catalog `[eIn]` (whose `ra = 0` is already in `[-π, π)`) with its
consistent ball-query groups `[[0]]`. -/
theorem C8_merge_nodup_id_witness :
    ((∀ e ∈ [eIn], ∃ a d, e.ra = EV.fin a ∧ e.dec = EV.fin d) ∧
     (0 : ℝ) ≤ 0 ∧
     (∀ i j, i < [eIn].length → j < [eIn].length → i ≠ j → ¬ dupNear [eIn] 0 i j) ∧
     ([[0]] : List (List ℕ)).length = [eIn].length ∧
     (∀ gi, gi < [eIn].length → (([[0]] : List (List ℕ)).getD gi []).Nodup) ∧
     (∀ gi, gi < [eIn].length → ∀ j,
       j ∈ ([[0]] : List (List ℕ)).getD gi [] ↔ (j < [eIn].length ∧ dupNear [eIn] 0 gi j))) ∧
    (merge_duplicates [eIn] [[0]] (1 / 4) =
        [eIn].map (fun e => { e with ra := rewindEV e.ra }) ∧
     ((∀ e ∈ [eIn], ∀ a, e.ra = EV.fin a → -Real.pi ≤ a ∧ a < Real.pi) →
        merge_duplicates [eIn] [[0]] (1 / 4) = [eIn])) := by
  have hdup00 : dupNear [eIn] 0 0 0 := dupNear_self [eIn] 0 0 le_rfl 0 0 rfl rfl
  have hfin : ∀ e ∈ [eIn], ∃ a d, e.ra = EV.fin a ∧ e.dec = EV.fin d := by
    intro e he
    rcases List.mem_cons.mp he with rfl | he'
    · exact ⟨0, 0, rfl, rfl⟩
    · simp at he'
  have hsep : ∀ i j, i < [eIn].length → j < [eIn].length → i ≠ j →
      ¬ dupNear [eIn] 0 i j := by
    intro i j hi hj hne
    simp only [List.length_cons, List.length_nil] at hi hj
    interval_cases i <;> interval_cases j <;> exact absurd rfl hne
  have hgmem : ∀ gi, gi < [eIn].length → ∀ j,
      j ∈ ([[0]] : List (List ℕ)).getD gi [] ↔
        (j < [eIn].length ∧ dupNear [eIn] 0 gi j) := by
    intro gi hgi j
    simp only [List.length_cons, List.length_nil] at hgi
    interval_cases gi
    constructor
    · intro hj
      rcases List.mem_cons.mp hj with rfl | hj'
      · exact ⟨by norm_num, hdup00⟩
      · simp at hj'
    · rintro ⟨hj, _⟩
      simp only [List.length_cons, List.length_nil] at hj
      interval_cases j
      exact List.mem_cons_self _ _
  have hgnodup : ∀ gi, gi < [eIn].length → (([[0]] : List (List ℕ)).getD gi []).Nodup := by
    intro gi hgi
    have hg0 : gi = 0 := by
      simp only [List.length_cons, List.length_nil] at hgi
      omega
    subst hg0
    simp
  exact ⟨⟨hfin, le_rfl, hsep, rfl, hgnodup, hgmem⟩,
    C8_merge_nodup_id [eIn] [[0]] (1 / 4) 0 hfin le_rfl hsep rfl hgnodup hgmem⟩

/-! ### Theorems for C6 -/

/-- Helper: establishing a numpy `>=` comparison makes the Boolean form true. -/
theorem geB_true {x y : EV} (h : EV.ge x y) : EV.geB x y = true := by
  classical
  simp only [EV.geB]
  exact decide_eq_true h

/-- Helper: processing the pair group `[0, 1]` when both entries carry the
same finite leading amplitude merges both entries (both pass the tolerance
filter) and marks them done. -/
theorem mergeStep_pair (cat' : List Entry) (alim : ℝ) (a : ℝ)
    (h0 : (cat'.getD 0 default).amp 0 = EV.fin a)
    (h1 : (cat'.getD 1 default).amp 0 = EV.fin a)
    (halim : 0 ≤ alim) :
    mergeStep cat' alim ([], []) [0, 1] =
      ([0, 1], [mergeEntry [cat'.getD 0 default, cat'.getD 1 default]]) := by
  have hfil : ([0, 1] : List ℕ).filter (fun n => !(([] : List ℕ).contains n)) = [0, 1] := by
    simp
  have habs0 : EV.abs ((cat'.getD 0 default).amp 0) = EV.fin |a| := by rw [h0]; rfl
  have habs1 : EV.abs ((cat'.getD 1 default).amp 0) = EV.fin |a| := by rw [h1]; rfl
  have hM : EV.listMax (([0, 1] : List ℕ).map
      (fun n => EV.abs ((cat'.getD n default).amp 0))) = EV.fin |a| := by
    rw [List.map_cons, List.map_cons, List.map_nil, habs0, habs1]
    show EV.listMax [EV.fin |a|, EV.fin |a|] = EV.fin |a|
    simp [EV.listMax, EV.max2]
  have hgood : ([0, 1] : List ℕ).filter (fun i =>
      EV.geB (EV.abs ((cat'.getD i default).amp 0))
        (EV.mul (EV.listMax (([0, 1] : List ℕ).map
          (fun i => EV.abs ((cat'.getD i default).amp 0)))) (EV.fin (1 - alim)))) =
      [0, 1] := by
    apply List.filter_eq_self.mpr
    intro n hn
    rw [hM]
    have hle : |a| * (1 - alim) ≤ |a| := by nlinarith [abs_nonneg a]
    rcases List.mem_cons.mp hn with rfl | hn'
    · rw [habs0]
      exact geB_true hle
    · rcases List.mem_cons.mp hn' with rfl | hn''
      · rw [habs1]
        exact geB_true hle
      · simp at hn''
  simp only [mergeStep, hfil]
  rw [hgood]
  simp

/-- Helper: a group all of whose members are already done is skipped. -/
theorem mergeStep_done (cat' : List Entry) (alim : ℝ) (out : List Entry) :
    mergeStep cat' alim ([0, 1], out) [0, 1] = ([0, 1], out) := by
  have hfil : ([0, 1] : List ℕ).filter (fun n => !(([0, 1] : List ℕ).contains n)) = [] := by
    simp
  simp only [mergeStep, hfil]

/-- Helper: merging a two-entry catalog whose entries share one duplicate
group and one finite leading amplitude produces exactly the merged entry of
the two (rewound) entries. -/
theorem merge_two_good (f0 f1 : Entry) (alim : ℝ) (a : ℝ)
    (h0 : f0.amp 0 = EV.fin a) (h1 : f1.amp 0 = EV.fin a) (halim : 0 ≤ alim) :
    merge_duplicates [f0, f1] [[0, 1], [0, 1]] alim =
      [mergeEntry [{ f0 with ra := rewindEV f0.ra }, { f1 with ra := rewindEV f1.ra }]] := by
  show (([[0, 1], [0, 1]] : List (List ℕ)).foldl
      (mergeStep ([f0, f1].map (fun e : Entry => { e with ra := rewindEV e.ra })) alim)
      ([], [])).2 = _
  have h0' : (([f0, f1].map (fun e : Entry =>
      { e with ra := rewindEV e.ra })).getD 0 default).amp 0 = EV.fin a := h0
  have h1' : (([f0, f1].map (fun e : Entry =>
      { e with ra := rewindEV e.ra })).getD 1 default).amp 0 = EV.fin a := h1
  rw [List.foldl_cons, mergeStep_pair _ alim a h0' h1' halim, List.foldl_cons,
    mergeStep_done, List.foldl_nil]
  rfl

/-- C6 (amended): for a merged group of two entries sharing a finite leading
amplitude (so both contribute), the merged entry's amplitude uncertainty
`damp` is the componentwise *minimum* of the contributors' uncertainties,
while the flux uncertainty `dflux` is their inverse-variance-weighted mean
(weights `damp[:,0]**-2`) — not the minimum. -/
theorem C6_merged_damp_min (f0 f1 : Entry) (alim : ℝ) (a : ℝ)
    (h0 : f0.amp 0 = EV.fin a) (h1 : f1.amp 0 = EV.fin a) (halim : 0 ≤ alim) :
    merge_duplicates [f0, f1] [[0, 1], [0, 1]] alim =
      [mergeEntry [{ f0 with ra := rewindEV f0.ra }, { f1 with ra := rewindEV f1.ra }]] ∧
    (∀ k, (mergeEntry [{ f0 with ra := rewindEV f0.ra },
        { f1 with ra := rewindEV f1.ra }]).damp k = EV.min2 (f0.damp k) (f1.damp k)) ∧
    (∀ k, (mergeEntry [{ f0 with ra := rewindEV f0.ra },
        { f1 with ra := rewindEV f1.ra }]).dflux k =
      EV.div
        (EV.add (EV.mul (f0.dflux k) (EV.ivar (f0.damp 0)))
          (EV.add (EV.mul (f1.dflux k) (EV.ivar (f1.damp 0))) (EV.fin 0)))
        (EV.add (EV.ivar (f0.damp 0)) (EV.add (EV.ivar (f1.damp 0)) (EV.fin 0)))) :=
  ⟨merge_two_good f0 f1 alim a h0 h1 halim, fun _ => rfl, fun _ => rfl⟩

/-- Counterexample for C6 as stated: merging the duplicate pair `ce0, ce1`
(equal amplitudes, uncertainties 1 and 2) gives a merged `damp 0` of
`min(1,2) = 1` but a merged `dflux 0` of `(1*1 + 2*(1/4))/(1 + 1/4) = 6/5`,
the inverse-variance-weighted mean — not the minimum `1` that the claim
asserts for the flux uncertainty field. -/
theorem C6_counterexample :
    merge_duplicates [ce0, ce1] [[0, 1], [0, 1]] (1 / 4) = [mergeEntry [ce0, ce1]] ∧
    (mergeEntry [ce0, ce1]).damp 0 = EV.fin 1 ∧
    (mergeEntry [ce0, ce1]).dflux 0 = EV.fin (6 / 5) ∧
    EV.min2 (ce0.dflux 0) (ce1.dflux 0) = EV.fin 1 ∧
    (mergeEntry [ce0, ce1]).dflux 0 ≠ EV.min2 (ce0.dflux 0) (ce1.dflux 0) := by
  have hpi := Real.pi_pos
  have hr0 : rewindEV (EV.fin 0) = EV.fin 0 := by
    show EV.fin (rewind 0) = EV.fin 0
    rw [rewind_eq_self 0 (by linarith) hpi]
  have hce0 : { ce0 with ra := rewindEV ce0.ra } = ce0 := by
    show { ce0 with ra := rewindEV (EV.fin 0) } = ce0
    rw [hr0]
    rfl
  have hce1 : { ce1 with ra := rewindEV ce1.ra } = ce1 := by
    show { ce1 with ra := rewindEV (EV.fin 0) } = ce1
    rw [hr0]
    rfl
  have hmerge : merge_duplicates [ce0, ce1] [[0, 1], [0, 1]] (1 / 4) =
      [mergeEntry [ce0, ce1]] := by
    rw [merge_two_good ce0 ce1 (1 / 4) 1 rfl rfl (by norm_num), hce0, hce1]
  have hdamp : (mergeEntry [ce0, ce1]).damp 0 = EV.fin 1 := by
    show EV.min2 (EV.fin 1) (EV.fin 2) = EV.fin 1
    show EV.fin (min 1 2) = EV.fin 1
    norm_num
  have hivar1 : EV.ivar (EV.fin 1) = EV.fin 1 := by
    show (if (1 : ℝ) = 0 then EV.nan else EV.fin (((1 : ℝ) ^ 2)⁻¹)) = EV.fin 1
    rw [if_neg (by norm_num)]
    norm_num
  have hivar2 : EV.ivar (EV.fin 2) = EV.fin (1 / 4) := by
    show (if (2 : ℝ) = 0 then EV.nan else EV.fin (((2 : ℝ) ^ 2)⁻¹)) = EV.fin (1 / 4)
    rw [if_neg (by norm_num)]
    norm_num
  have hdflux : (mergeEntry [ce0, ce1]).dflux 0 = EV.fin (6 / 5) := by
    show EV.div
        (EV.sum (List.zipWith EV.mul [ce0.dflux 0, ce1.dflux 0]
          [EV.ivar (ce0.damp 0), EV.ivar (ce1.damp 0)]))
        (EV.sum [EV.ivar (ce0.damp 0), EV.ivar (ce1.damp 0)]) = EV.fin (6 / 5)
    show EV.div
        (EV.sum (List.zipWith EV.mul [EV.fin 1, EV.fin 2]
          [EV.ivar (EV.fin 1), EV.ivar (EV.fin 2)]))
        (EV.sum [EV.ivar (EV.fin 1), EV.ivar (EV.fin 2)]) = EV.fin (6 / 5)
    rw [hivar1, hivar2]
    show EV.div (EV.fin (1 * 1 + (2 * (1 / 4) + 0))) (EV.fin (1 + (1 / 4 + 0))) =
      EV.fin (6 / 5)
    show (if (1 : ℝ) + (1 / 4 + 0) = 0 then EV.nan
      else EV.fin ((1 * 1 + (2 * (1 / 4) + 0)) / (1 + (1 / 4 + 0)))) = EV.fin (6 / 5)
    rw [if_neg (by norm_num)]
    norm_num
  have hmin : EV.min2 (ce0.dflux 0) (ce1.dflux 0) = EV.fin 1 := by
    show EV.fin (min 1 2) = EV.fin 1
    norm_num
  refine ⟨hmerge, hdamp, hdflux, hmin, ?_⟩
  rw [hdflux, hmin]
  intro hcon
  have : (6 : ℝ) / 5 = 1 := by injection hcon
  norm_num at this

/-- Witness for C6: the amended theorem applied to the concrete pair
`ce0, ce1` with the default tolerance `alim = 0.25`. -/
theorem C6_merged_damp_min_witness :
    (ce0.amp 0 = EV.fin 1 ∧ ce1.amp 0 = EV.fin 1 ∧ (0 : ℝ) ≤ 1 / 4) ∧
    (merge_duplicates [ce0, ce1] [[0, 1], [0, 1]] (1 / 4) =
      [mergeEntry [{ ce0 with ra := rewindEV ce0.ra }, { ce1 with ra := rewindEV ce1.ra }]] ∧
    (∀ k, (mergeEntry [{ ce0 with ra := rewindEV ce0.ra },
        { ce1 with ra := rewindEV ce1.ra }]).damp k = EV.min2 (ce0.damp k) (ce1.damp k)) ∧
    (∀ k, (mergeEntry [{ ce0 with ra := rewindEV ce0.ra },
        { ce1 with ra := rewindEV ce1.ra }]).dflux k =
      EV.div
        (EV.add (EV.mul (ce0.dflux k) (EV.ivar (ce0.damp 0)))
          (EV.add (EV.mul (ce1.dflux k) (EV.ivar (ce1.damp 0))) (EV.fin 0)))
        (EV.add (EV.ivar (ce0.damp 0)) (EV.add (EV.ivar (ce1.damp 0)) (EV.fin 0))))) :=
  ⟨⟨rfl, rfl, by norm_num⟩,
    C6_merged_damp_min ce0 ce1 (1 / 4) 1 rfl rfl (by norm_num)⟩

/-! ### Theorems for C9 -/

/-- Helper: one triangular taper factor is nonnegative on its box. -/
theorem merge_weight_factor_nonneg (N : ℕ) (t : ℤ) (h0 : 0 ≤ t) (hN : t < N) :
    0 ≤ 1 - 2 * |(t : ℚ) - ((N : ℚ) - 1) / 2| / N := by
  have hNpos : 0 < (N : ℚ) := by
    have : 0 < (N : ℤ) := lt_of_le_of_lt h0 hN
    exact_mod_cast this
  have ht0 : 0 ≤ (t : ℚ) := by exact_mod_cast h0
  have htN : (t : ℚ) ≤ (N : ℚ) - 1 := by
    have h' : t ≤ (N : ℤ) - 1 := by omega
    exact_mod_cast h'
  have habs : |(t : ℚ) - ((N : ℚ) - 1) / 2| ≤ ((N : ℚ) - 1) / 2 := by
    rw [abs_le]
    constructor <;> linarith
  have h2 : 2 * |(t : ℚ) - ((N : ℚ) - 1) / 2| / N ≤ ((N : ℚ) - 1) / N :=
    (div_le_div_iff_of_pos_right hNpos).mpr (by linarith)
  have h3 : ((N : ℚ) - 1) / N ≤ 1 := by
    rw [div_le_one hNpos]; linarith
  linarith

/-- Helper: every contribution weight is nonnegative. -/
theorem contribWeight_nonneg (c : Contrib) (p : ℤ × ℤ) : 0 ≤ contribWeight c p := by
  unfold contribWeight
  split
  · next hbox =>
    obtain ⟨h1, h2, h3, h4⟩ := hbox
    unfold build_merge_weight
    apply mul_nonneg
    · exact merge_weight_factor_nonneg c.ny (p.1 - c.y0) (by omega) (by omega)
    · exact merge_weight_factor_nonneg c.nx (p.2 - c.x0) (by omega) (by omega)
  · exact le_rfl

/-- Helper: a list of nonnegatives summing to zero is all zero. -/
theorem list_sum_zero_of_nonneg (l : List ℚ) (h : ∀ x ∈ l, 0 ≤ x) (hs : l.sum = 0) :
    ∀ x ∈ l, x = 0 := by
  induction l with
  | nil => intro x hx; simp at hx
  | cons a l ih =>
    have hsl : 0 ≤ l.sum := List.sum_nonneg (fun x hx => h x (List.mem_cons_of_mem _ hx))
    have ha : 0 ≤ a := h a (List.mem_cons_self _ _)
    rw [List.sum_cons] at hs
    have ha0 : a = 0 := by linarith
    have hl0 : l.sum = 0 := by linarith
    intro x hx
    rcases List.mem_cons.mp hx with hxa | hx
    · rw [hxa, ha0]
    · exact ih (fun y hy => h y (List.mem_cons_of_mem _ hy)) hl0 x hx

/-- C9: at every output pixel, `merge_maps_onto` produces `0` when the
accumulated weight is zero (the `0/0` NaN is mapped to zero, and the
`±floatMax` garbage branch is unreachable because a zero weight sum forces a
zero weighted-value sum), and the weighted average `omap/odiv` of the
contributing maps otherwise. -/
theorem C9_merge_zero_weight_pixels (cs : List Contrib) (p : ℤ × ℤ) :
    merge_maps_onto cs p =
      if odiv_sum cs p = 0 then 0 else omap_sum cs p / odiv_sum cs p := by
  by_cases h : odiv_sum cs p = 0
  · rw [if_pos h]
    have hall : ∀ x ∈ cs.map (fun c => contribWeight c p), x = 0 := by
      apply list_sum_zero_of_nonneg
      · intro x hx
        rcases List.mem_map.mp hx with ⟨c, _, rfl⟩
        exact contribWeight_nonneg c p
      · exact h
    have hz : omap_sum cs p = 0 := by
      unfold omap_sum
      apply List.sum_eq_zero
      intro x hx
      rcases List.mem_map.mp hx with ⟨c, hc, rfl⟩
      have hw : contribWeight c p = 0 :=
        hall _ (List.mem_map.mpr ⟨c, hc, rfl⟩)
      rw [hw, zero_mul]
    unfold merge_maps_onto div_nan_to_num
    rw [hz, h]
    simp
  · rw [if_neg h]
    unfold merge_maps_onto div_nan_to_num
    rw [if_neg h]

/-! ### Theorems for C2 and C3 -/

/-- Helper: the candidate loop only returns elements of its pool. -/
theorem buildGroupF_subset (corr : ℕ → ℕ → Bool) :
    ∀ (fuel : ℕ) (l : List ℕ), ∀ x ∈ buildGroupF corr fuel l, x ∈ l := by
  intro fuel
  induction fuel with
  | zero => intro l x hx; simp [buildGroupF] at hx
  | succ n ih =>
    intro l x hx
    cases l with
    | nil => simp [buildGroupF] at hx
    | cons e rest =>
      simp only [buildGroupF] at hx
      rcases List.mem_cons.mp hx with rfl | hx'
      · exact List.mem_cons_self _ _
      · exact List.mem_cons_of_mem _ (List.mem_of_mem_filter (ih _ x hx'))

/-- Helper: along the order in which the candidate loop picks elements, no
later element is in an earlier element's neighbor set. -/
theorem buildGroupF_pairwise (corr : ℕ → ℕ → Bool) :
    ∀ (fuel : ℕ) (l : List ℕ),
      (buildGroupF corr fuel l).Pairwise (fun a b => corr a b = false) := by
  intro fuel
  induction fuel with
  | zero => intro l; simp [buildGroupF]
  | succ n ih =>
    intro l
    cases l with
    | nil => simp [buildGroupF]
    | cons e rest =>
      simp only [buildGroupF]
      refine List.pairwise_cons.mpr ⟨?_, ih _⟩
      intro b hb
      have hbf := buildGroupF_subset corr n _ b hb
      have hfb := List.of_mem_filter hbf
      simpa using hfb

/-- Helper: every member of every independent group comes from the pool. -/
theorem groupIndepF_subset (corr : ℕ → ℕ → Bool) :
    ∀ (fuel : ℕ) (l : List ℕ), ∀ g ∈ groupIndepF corr fuel l, ∀ x ∈ g, x ∈ l := by
  intro fuel
  induction fuel with
  | zero => intro l g hg; simp [groupIndepF] at hg
  | succ n ih =>
    intro l g hg
    cases l with
    | nil => simp [groupIndepF] at hg
    | cons e rest =>
      simp only [groupIndepF] at hg
      rcases List.mem_cons.mp hg with rfl | hg'
      · intro x hx
        exact buildGroupF_subset corr _ _ x hx
      · intro x hx
        exact List.mem_of_mem_filter (ih _ g hg' x hx)

/-- Helper: within every independent group, later members are outside
earlier members' neighbor sets. -/
theorem groupIndepF_pairwise (corr : ℕ → ℕ → Bool) :
    ∀ (fuel : ℕ) (l : List ℕ), ∀ g ∈ groupIndepF corr fuel l,
      g.Pairwise (fun a b => corr a b = false) := by
  intro fuel
  induction fuel with
  | zero => intro l g hg; simp [groupIndepF] at hg
  | succ n ih =>
    intro l g hg
    cases l with
    | nil => simp [groupIndepF] at hg
    | cons e rest =>
      simp only [groupIndepF] at hg
      rcases List.mem_cons.mp hg with rfl | hg'
      · exact buildGroupF_pairwise corr _ _
      · exact ih _ g hg'

/-- C2 (amended): in every independent group produced by
`group_independent`, no later-chosen member lies in the correlated-neighbor
set of any earlier-chosen member (one direction only: the neighbor relation
is not symmetric in general, so the converse pairs may be correlated). -/
theorem C2_group_onesided (pos : List (ℝ × ℝ)) (L : ℝ) (corr : ℕ → ℕ → Bool)
    (l : List ℕ)
    (hc : ∀ i ∈ l, ∀ j ∈ l, (corr i j = true ↔ corrNeighbor pos L i j)) :
    ∀ g ∈ group_independent corr l,
      g.Pairwise (fun a b => ¬ corrNeighbor pos L a b) := by
  intro g hg
  have hsub := groupIndepF_subset corr l.length l g hg
  have hpw := groupIndepF_pairwise corr l.length l g hg
  refine hpw.imp_of_mem ?_
  intro a b ha hb hab hcon
  have htrue : corr a b = true := (hc a (hsub a ha) b (hsub b hb)).mpr hcon
  rw [hab] at htrue
  exact Bool.false_ne_true htrue

/-- Helper: every source is in its own correlated-neighbor set (distance
zero, for a nonnegative correlation length). -/
theorem corrNeighbor_self (pos : List (ℝ × ℝ)) (L : ℝ) (i : ℕ) (hL : 0 ≤ L) :
    corrNeighbor pos L i i := by
  refine ⟨0, by simp [wrapShifts], ?_⟩
  have hz : (posDec pos i - posDec pos i) ^ 2 +
      (posRa pos i * Real.cos (posDec pos i) -
        (posRa pos i + 0) * Real.cos (posDec pos i)) ^ 2 = 0 := by ring
  rw [hz, Real.sqrt_zero]
  exact hL

/-- Witness for C2: the amended theorem applied to a single source at the
origin with the trivially-consistent all-true neighbor matrix. -/
theorem C2_group_onesided_witness :
    (∀ i ∈ [0], ∀ j ∈ [0],
      ((fun _ _ => true : ℕ → ℕ → Bool) i j = true ↔
        corrNeighbor [((0 : ℝ), (0 : ℝ))] 1 i j)) ∧
    (∀ g ∈ group_independent (fun _ _ => true) [0],
      g.Pairwise (fun a b => ¬ corrNeighbor [((0 : ℝ), (0 : ℝ))] 1 a b)) := by
  have hc : ∀ i ∈ [0], ∀ j ∈ [0],
      ((fun _ _ => true : ℕ → ℕ → Bool) i j = true ↔
        corrNeighbor [((0 : ℝ), (0 : ℝ))] 1 i j) := by
    intro i hi j hj
    rcases List.mem_cons.mp hi with rfl | hi'
    · rcases List.mem_cons.mp hj with rfl | hj'
      · exact iff_of_true rfl (corrNeighbor_self _ _ 0 zero_le_one)
      · simp at hj'
    · simp at hi'
  exact ⟨hc, C2_group_onesided [((0 : ℝ), (0 : ℝ))] 1 (fun _ _ => true) [0] hc⟩

/-- Helper: the rewound coordinates of the concrete two-source input. -/
theorem posEx_vals :
    posDec posEx 0 = Real.pi / 3 ∧ posRa posEx 0 = Real.pi / 2 ∧
    posDec posEx 1 = 0 ∧ posRa posEx 1 = -(3 * Real.pi / 4) := by
  have hpi := Real.pi_pos
  refine ⟨?_, ?_, ?_, ?_⟩
  · show rewind (Real.pi / 3) = Real.pi / 3
    exact rewind_eq_self _ (by linarith) (by linarith)
  · show rewind (Real.pi / 2) = Real.pi / 2
    exact rewind_eq_self _ (by linarith) (by linarith)
  · show rewind 0 = 0
    exact rewind_eq_self _ (by linarith) (by linarith)
  · show rewind (-(3 * Real.pi / 4)) = -(3 * Real.pi / 4)
    exact rewind_eq_self _ (by linarith) (by linarith)

/-- Helper: source 0 lies in source 1's neighbor set through the `-2π`
wrapped copy: the scaled distance is exactly `π/3 ≤ 2`. -/
theorem corrNeighbor_posEx_one_zero : corrNeighbor posEx 2 1 0 := by
  obtain ⟨hd0, hr0, hd1, hr1⟩ := posEx_vals
  refine ⟨-(2 * Real.pi), by simp [wrapShifts], ?_⟩
  rw [hd0, hr0, hd1, hr1, Real.cos_zero, Real.cos_pi_div_three]
  have hexp : (0 - Real.pi / 3) ^ 2 +
      (-(3 * Real.pi / 4) * 1 -
        (Real.pi / 2 + -(2 * Real.pi)) * (1 / 2)) ^ 2 = (Real.pi / 3) ^ 2 := by
    ring
  rw [hexp, Real.sqrt_sq (by positivity)]
  linarith [Real.pi_le_four]

/-- Helper: source 1 is not in source 0's neighbor set: all three wrapped
copies are farther than 2 away in the scaled metric. -/
theorem not_corrNeighbor_posEx_zero_one : ¬ corrNeighbor posEx 2 0 1 := by
  obtain ⟨hd0, hr0, hd1, hr1⟩ := posEx_vals
  have hsq : ∀ E : ℝ, 0 ≤ E → Real.sqrt E ≤ 2 → E ≤ 4 := by
    intro E hE h
    have h2 : Real.sqrt E ^ 2 ≤ 2 ^ 2 := by
      apply pow_le_pow_left (Real.sqrt_nonneg E) h
    rw [Real.sq_sqrt hE] at h2
    linarith
  have hpi3 := Real.pi_gt_three
  rintro ⟨s, hs, hle⟩
  rw [hd0, hr0, hd1, hr1, Real.cos_zero, Real.cos_pi_div_three] at hle
  have hs3 : s = 0 ∨ s = -(2 * Real.pi) ∨ s = 2 * Real.pi := by
    simpa [wrapShifts] using hs
  rcases hs3 with rfl | rfl | rfl
  · have h4 := hsq _ (by positivity) hle
    nlinarith
  · have h4 := hsq _ (by positivity) hle
    nlinarith
  · have h4 := hsq _ (by positivity) hle
    nlinarith

/-- Counterexample for C2 as stated: with the two sources of `posEx` and
correlation length 2, the Boolean matrix `corrB` is exactly the
correlated-neighbor relation, yet `group_independent` puts both sources in
one group even though source 0 *is* in source 1's correlated-neighbor set
(their one-sided correlation survives because source 0 is popped first and
source 1 is not in source 0's set). -/
theorem C2_counterexample :
    (∀ i ∈ [0, 1], ∀ j ∈ [0, 1], (corrB i j = true ↔ corrNeighbor posEx 2 i j)) ∧
    group_independent corrB [0, 1] = [[0, 1]] ∧
    corrNeighbor posEx 2 1 0 := by
  refine ⟨?_, by decide, corrNeighbor_posEx_one_zero⟩
  intro i hi j hj
  rcases List.mem_cons.mp hi with rfl | hi'
  · rcases List.mem_cons.mp hj with rfl | hj'
    · exact iff_of_true rfl (corrNeighbor_self posEx 2 0 (by norm_num))
    · rcases List.mem_cons.mp hj' with rfl | hj''
      · exact iff_of_false (by decide) not_corrNeighbor_posEx_zero_one
      · simp at hj''
  · rcases List.mem_cons.mp hi' with rfl | hi''
    · rcases List.mem_cons.mp hj with rfl | hj'
      · exact iff_of_true rfl corrNeighbor_posEx_one_zero
      · rcases List.mem_cons.mp hj' with rfl | hj''
        · exact iff_of_true rfl (corrNeighbor_self posEx 2 1 (by norm_num))
        · simp at hj''
    · simp at hi''

/-- C3 (amended): the correlated-neighbor relation is symmetric between any
two sources whose declinations have equal cosine (in particular at equal
declination): the `2π` wrap shifts are closed under negation and the scaled
distance is then symmetric. For unequal cos-declinations, wrap-matched pairs
can be one-sided. -/
theorem C3_symm_eq_cos (pos : List (ℝ × ℝ)) (L : ℝ) (i j : ℕ)
    (h : Real.cos (posDec pos i) = Real.cos (posDec pos j)) :
    corrNeighbor pos L i j ↔ corrNeighbor pos L j i := by
  have key : ∀ a b : ℕ, Real.cos (posDec pos a) = Real.cos (posDec pos b) →
      corrNeighbor pos L a b → corrNeighbor pos L b a := by
    intro a b hab hn
    obtain ⟨s, hs, hle⟩ := hn
    refine ⟨-s, ?_, ?_⟩
    · have hs3 : s = 0 ∨ s = -(2 * Real.pi) ∨ s = 2 * Real.pi := by
        simpa [wrapShifts] using hs
      rcases hs3 with rfl | rfl | rfl
      · simp [wrapShifts]
      · simp [wrapShifts]
      · simp [wrapShifts]
    · rw [hab] at hle
      have hswap : (posDec pos b - posDec pos a) ^ 2 +
          (posRa pos b * Real.cos (posDec pos b) -
            (posRa pos a + -s) * Real.cos (posDec pos b)) ^ 2 =
          (posDec pos a - posDec pos b) ^ 2 +
          (posRa pos a * Real.cos (posDec pos b) -
            (posRa pos b + s) * Real.cos (posDec pos b)) ^ 2 := by
        ring
      rw [hab, hswap]
      exact hle
  exact ⟨key i j h, key j i h.symm⟩

/-- Counterexample for C3 as stated: in `posEx` with correlation length 2,
source 0 is in source 1's correlated-neighbor set (via the `-2π` wrap), but
source 1 is not in source 0's: the relation is not symmetric. -/
theorem C3_counterexample :
    corrNeighbor posEx 2 1 0 ∧ ¬ corrNeighbor posEx 2 0 1 :=
  ⟨corrNeighbor_posEx_one_zero, not_corrNeighbor_posEx_zero_one⟩

/-! ### Theorems for C1 -/

/-- Helper: the DFT phase is additive in its numerator. -/
theorem echar_add (N : ℕ) (a b : ℤ) : echar N (a + b) = echar N a * echar N b := by
  unfold echar
  rw [← Complex.exp_add]
  congr 1
  push_cast
  ring

/-- Helper: the DFT phase at numerator zero is 1. -/
theorem echar_zero (N : ℕ) : echar N 0 = 1 := by
  unfold echar
  norm_num

/-- Helper: the DFT phase at a multiple of `N` is 1. -/
theorem echar_int_mul (N : ℕ) [NeZero N] (t : ℤ) : echar N ((N : ℤ) * t) = 1 := by
  unfold echar
  have hNR : (N : ℝ) ≠ 0 := Nat.cast_ne_zero.mpr (NeZero.ne N)
  have harg : (2 * Real.pi * ((((N : ℤ) * t : ℤ)) : ℝ) / N : ℝ) = 2 * Real.pi * (t : ℝ) := by
    push_cast
    field_simp
    ring
  rw [harg]
  have h2 : ((2 * Real.pi * (t : ℝ) : ℝ) : ℂ) * Complex.I =
      (t : ℂ) * (2 * (Real.pi : ℂ) * Complex.I) := by
    push_cast
    ring
  rw [h2]
  exact Complex.exp_int_mul_two_pi_mul_I t

/-- Helper: the DFT phase depends only on the numerator mod `N`. -/
theorem echar_congr (N : ℕ) [NeZero N] {a b : ℤ} (h : a ≡ b [ZMOD N]) :
    echar N a = echar N b := by
  obtain ⟨t, ht⟩ := h.dvd
  have hb : b = a + (N : ℤ) * t := by linarith
  rw [hb, echar_add, echar_int_mul, mul_one]

/-- Helper: conjugating the DFT phase negates its numerator. -/
theorem echar_conj (N : ℕ) (a : ℤ) :
    (starRingEnd ℂ) (echar N a) = echar N (-a) := by
  unfold echar
  rw [← Complex.exp_conj]
  congr 1
  rw [map_mul, Complex.conj_I, Complex.conj_ofReal]
  push_cast
  ring

/-- Helper: the value of a residue obtained by casting an integer is
congruent to that integer. -/
theorem val_intCast_congr (N : ℕ) [NeZero N] (c : ZMod N) (z : ℤ)
    (h : (z : ZMod N) = c) : ((c.val : ℤ)) ≡ z [ZMOD N] := by
  rw [← ZMod.intCast_eq_intCast_iff]
  rw [← h]
  push_cast
  rw [ZMod.natCast_val, ZMod.cast_id]

/-- Helper: 1D orthogonality of the DFT characters: summing the phase over
one axis gives `N` at frequency zero and 0 elsewhere. -/
theorem sum_echar (N : ℕ) [NeZero N] (a : ZMod N) :
    ∑ x : ZMod N, echar N ((a.val : ℤ) * x.val) = if a = 0 then (N : ℂ) else 0 := by
  by_cases ha : a = 0
  · subst ha
    rw [if_pos rfl]
    have hone : ∀ x : ZMod N, echar N (((0 : ZMod N).val : ℤ) * x.val) = 1 := by
      intro x
      rw [ZMod.val_zero]
      push_cast
      rw [zero_mul, echar_zero]
    rw [Finset.sum_congr rfl (fun x _ => hone x)]
    simp [ZMod.card]
  · rw [if_neg ha]
    set ζ := Complex.exp ((2 * Real.pi * a.val / N : ℝ) * Complex.I) with hζ
    have hterm : ∀ x : ZMod N, echar N ((a.val : ℤ) * x.val) = ζ ^ x.val := by
      intro x
      rw [hζ]
      unfold echar
      rw [← Complex.exp_nat_mul]
      congr 1
      push_cast
      ring
    rw [Finset.sum_congr rfl (fun x _ => hterm x)]
    have hre : ∑ x : ZMod N, ζ ^ x.val = ∑ i ∈ Finset.range N, ζ ^ i := by
      apply Finset.sum_nbij' (fun (x : ZMod N) => x.val) (fun (i : ℕ) => (i : ZMod N))
      · intro x _
        exact Finset.mem_range.mpr (ZMod.val_lt x)
      · intro i _
        exact Finset.mem_univ _
      · intro x _
        exact ZMod.natCast_rightInverse x
      · intro i hi
        exact ZMod.val_cast_of_lt (Finset.mem_range.mp hi)
      · intro x _
        rfl
    rw [hre]
    have hNR : (N : ℝ) ≠ 0 := Nat.cast_ne_zero.mpr (NeZero.ne N)
    have hNC : (N : ℂ) ≠ 0 := Nat.cast_ne_zero.mpr (NeZero.ne N)
    have hζN : ζ ^ N = 1 := by
      rw [hζ, ← Complex.exp_nat_mul]
      have harg : (N : ℂ) * (((2 * Real.pi * a.val / N : ℝ)) * Complex.I) =
          ((a.val : ℤ) : ℂ) * (2 * (Real.pi : ℂ) * Complex.I) := by
        push_cast
        field_simp
        ring
      rw [harg]
      exact Complex.exp_int_mul_two_pi_mul_I (a.val : ℤ)
    have hζ1 : ζ ≠ 1 := by
      intro hcon
      rw [hζ] at hcon
      rw [Complex.exp_eq_one_iff] at hcon
      obtain ⟨t, ht⟩ := hcon
      have h2 : (t : ℂ) * (2 * (Real.pi : ℂ) * Complex.I) =
          ((2 * Real.pi * (t : ℝ) : ℝ) : ℂ) * Complex.I := by
        push_cast
        ring
      rw [h2] at ht
      have hIR : (2 * Real.pi * (a.val : ℝ) / N : ℝ) = 2 * Real.pi * (t : ℝ) :=
        Complex.ofReal_inj.mp (mul_right_cancel₀ Complex.I_ne_zero ht)
      have hNpos : 0 < (N : ℝ) := by
        have := Nat.pos_of_ne_zero (NeZero.ne N)
        exact_mod_cast this
      have h2pi : (2 * Real.pi : ℝ) ≠ 0 := by positivity
      have hdivt : (a.val : ℝ) / N = t := by
        apply mul_left_cancel₀ h2pi
        rw [← hIR]
        ring
      have hval : (a.val : ℝ) = (t : ℝ) * N := by
        rw [← hdivt]
        field_simp
      have hvpos : 0 < (a.val : ℝ) := by
        have hne : a.val ≠ 0 := fun hc => ha ((ZMod.val_eq_zero a).mp hc)
        have := Nat.pos_of_ne_zero hne
        exact_mod_cast this
      have hvlt : (a.val : ℝ) < N := by exact_mod_cast ZMod.val_lt a
      have ht0 : (0 : ℝ) < t := by
        by_contra hle
        push_neg at hle
        have : (t : ℝ) * N ≤ 0 := mul_nonpos_of_nonpos_of_nonneg hle hNpos.le
        linarith
      have ht1 : (t : ℝ) < 1 := by
        by_contra hge
        push_neg at hge
        have : (N : ℝ) ≤ (t : ℝ) * N := le_mul_of_one_le_left hNpos.le hge
        linarith
      have htz : (0 : ℤ) < t := by exact_mod_cast ht0
      have htz1 : (1 : ℤ) ≤ t := htz
      have : (1 : ℝ) ≤ (t : ℝ) := by exact_mod_cast htz1
      linarith
    rw [geom_sum_eq hζ1, hζN]
    simp

/-- Helper: the character at pixel zero is 1. -/
theorem ch_zero {n m : ℕ} [NeZero n] [NeZero m] (k : ZMod n × ZMod m) :
    ch k (0 : ZMod n × ZMod m) = 1 := by
  unfold ch
  simp [ZMod.val_zero, echar_zero]

/-- Helper: characters have unit modulus. -/
theorem abs_ch {n m : ℕ} (k x : ZMod n × ZMod m) : Complex.abs (ch k x) = 1 := by
  unfold ch echar
  rw [map_mul, Complex.abs_exp_ofReal_mul_I, Complex.abs_exp_ofReal_mul_I, one_mul]

/-- Helper: the real part of a character is at most 1. -/
theorem ch_re_le_one {n m : ℕ} (k x : ZMod n × ZMod m) : (ch k x).re ≤ 1 :=
  le_trans (Complex.re_le_abs _) (le_of_eq (abs_ch k x))

/-- Helper: the value of a difference of residues is congruent to the
difference of values. -/
theorem val_sub_congr (N : ℕ) [NeZero N] (a b : ZMod N) :
    (((a - b).val : ℤ)) ≡ (a.val : ℤ) - (b.val : ℤ) [ZMOD N] := by
  apply val_intCast_congr
  push_cast
  rw [ZMod.natCast_val, ZMod.natCast_val, ZMod.cast_id, ZMod.cast_id]

/-- Helper: the value of a negated residue is congruent to the negated
value. -/
theorem val_neg_congr (N : ℕ) [NeZero N] (a : ZMod N) :
    (((-a).val : ℤ)) ≡ -(a.val : ℤ) [ZMOD N] := by
  apply val_intCast_congr
  push_cast
  rw [ZMod.natCast_val, ZMod.cast_id]

/-- Helper: product with a conjugated character shifts the frequency. -/
theorem ch_mul_conj {n m : ℕ} [NeZero n] [NeZero m] (j k x : ZMod n × ZMod m) :
    ch j x * (starRingEnd ℂ) (ch k x) =
      echar n (((j.1 - k.1).val : ℤ) * x.1.val) *
        echar m (((j.2 - k.2).val : ℤ) * x.2.val) := by
  unfold ch
  rw [map_mul, echar_conj, echar_conj]
  rw [show (echar n ((j.1.val : ℤ) * x.1.val) * echar m ((j.2.val : ℤ) * x.2.val)) *
      (echar n (-((k.1.val : ℤ) * x.1.val)) * echar m (-((k.2.val : ℤ) * x.2.val))) =
      (echar n ((j.1.val : ℤ) * x.1.val) * echar n (-((k.1.val : ℤ) * x.1.val))) *
      (echar m ((j.2.val : ℤ) * x.2.val) * echar m (-((k.2.val : ℤ) * x.2.val))) from by
    ring]
  rw [← echar_add, ← echar_add]
  congr 1
  · apply echar_congr
    have heq : (j.1.val : ℤ) * x.1.val + -((k.1.val : ℤ) * x.1.val) =
        ((j.1.val : ℤ) - k.1.val) * x.1.val := by ring
    rw [heq]
    exact ((val_sub_congr n j.1 k.1).mul_right _).symm
  · apply echar_congr
    have heq : (j.2.val : ℤ) * x.2.val + -((k.2.val : ℤ) * x.2.val) =
        ((j.2.val : ℤ) - k.2.val) * x.2.val := by ring
    rw [heq]
    exact ((val_sub_congr m j.2 k.2).mul_right _).symm

/-- Helper: 2D orthogonality of the DFT characters. -/
theorem sum_ch_conj {n m : ℕ} [NeZero n] [NeZero m] (j k : ZMod n × ZMod m) :
    ∑ x : ZMod n × ZMod m, ch j x * (starRingEnd ℂ) (ch k x) =
      if j = k then ((n * m : ℕ) : ℂ) else 0 := by
  rw [Finset.sum_congr rfl (fun x _ => ch_mul_conj j k x)]
  rw [Fintype.sum_prod_type]
  rw [show (∑ x1 : ZMod n, ∑ x2 : ZMod m,
      echar n (((j.1 - k.1).val : ℤ) * x1.val) *
        echar m (((j.2 - k.2).val : ℤ) * x2.val)) =
      (∑ x1 : ZMod n, echar n (((j.1 - k.1).val : ℤ) * x1.val)) *
      (∑ x2 : ZMod m, echar m (((j.2 - k.2).val : ℤ) * x2.val)) from by
    rw [Finset.sum_mul_sum]]
  rw [sum_echar n (j.1 - k.1), sum_echar m (j.2 - k.2)]
  by_cases h1 : j.1 = k.1
  · by_cases h2 : j.2 = k.2
    · rw [if_pos (sub_eq_zero.mpr h1), if_pos (sub_eq_zero.mpr h2),
        if_pos (Prod.ext h1 h2)]
      push_cast
      ring
    · rw [if_neg (fun hc => h2 (sub_eq_zero.mp hc)), mul_zero,
        if_neg (fun hc : j = k => h2 (by rw [hc]))]
  · rw [if_neg (fun hc => h1 (sub_eq_zero.mp hc)), zero_mul,
      if_neg (fun hc : j = k => h1 (by rw [hc]))]

/-- Helper: the unitary normalization squares to the inverse grid size. -/
theorem nfac_sq (n m : ℕ) [NeZero n] [NeZero m] :
    (nfac n m : ℝ) * (nfac n m : ℝ) * ((n * m : ℕ) : ℝ) = 1 := by
  unfold nfac
  have hpos : (0 : ℝ) < ((n * m : ℕ) : ℝ) := by
    have := Nat.mul_pos (Nat.pos_of_ne_zero (NeZero.ne n)) (Nat.pos_of_ne_zero (NeZero.ne m))
    exact_mod_cast this
  have hcast : ((n * m : ℕ) : ℝ) = ((n : ℝ) * m) := by push_cast; ring
  rw [hcast] at hpos ⊢
  rw [← mul_inv]
  rw [Real.mul_self_sqrt hpos.le]
  exact inv_mul_cancel₀ (ne_of_gt hpos)

/-- Helper: `enmap.fft` inverts `enmap.ifft` (the unitary DFT pair). -/
theorem fftC_ifftC {n m : ℕ} [NeZero n] [NeZero m] (g : ZMod n × ZMod m → ℂ)
    (k : ZMod n × ZMod m) : fftC (ifftC g) k = g k := by
  unfold fftC ifftC
  have h1 : ∀ x : ZMod n × ZMod m,
      ((nfac n m : ℂ) * ∑ j, g j * ch j x) * (starRingEnd ℂ) (ch k x) =
      (nfac n m : ℂ) * ∑ j, g j * (ch j x * (starRingEnd ℂ) (ch k x)) := by
    intro x
    rw [mul_assoc, Finset.sum_mul]
    congr 1
    apply Finset.sum_congr rfl
    intro j _
    ring
  rw [Finset.sum_congr rfl (fun x _ => h1 x)]
  rw [← Finset.mul_sum, ← mul_assoc]
  rw [Finset.sum_comm]
  have h2 : ∀ j : ZMod n × ZMod m,
      (∑ x, g j * (ch j x * (starRingEnd ℂ) (ch k x))) =
      g j * ∑ x, ch j x * (starRingEnd ℂ) (ch k x) := by
    intro j
    rw [Finset.mul_sum]
  rw [Finset.sum_congr rfl (fun j _ => h2 j)]
  have h3 : ∀ j : ZMod n × ZMod m,
      g j * ∑ x, ch j x * (starRingEnd ℂ) (ch k x) =
      if j = k then g j * ((n * m : ℕ) : ℂ) else 0 := by
    intro j
    rw [sum_ch_conj]
    by_cases hj : j = k
    · rw [if_pos hj, if_pos hj]
    · rw [if_neg hj, if_neg hj, mul_zero]
  rw [Finset.sum_congr rfl (fun j _ => h3 j)]
  rw [Finset.sum_ite_eq' Finset.univ k (fun j => g j * ((n * m : ℕ) : ℂ))]
  rw [if_pos (Finset.mem_univ k)]
  have h4 : ((nfac n m : ℝ) : ℂ) * ((nfac n m : ℝ) : ℂ) * ((n * m : ℕ) : ℂ) = 1 := by
    exact_mod_cast congrArg (fun r : ℝ => (r : ℂ)) (nfac_sq n m)
  calc (nfac n m : ℂ) * (nfac n m : ℂ) * (g k * ((n * m : ℕ) : ℂ))
      = ((nfac n m : ℂ) * (nfac n m : ℂ) * ((n * m : ℕ) : ℂ)) * g k := by ring
    _ = g k := by rw [h4, one_mul]

/-- Helper: conjugating a character negates the frequency. -/
theorem conj_ch {n m : ℕ} [NeZero n] [NeZero m] (k x : ZMod n × ZMod m) :
    (starRingEnd ℂ) (ch k x) = ch (-k) x := by
  unfold ch
  rw [map_mul, echar_conj, echar_conj]
  congr 1
  · apply echar_congr
    have := (val_neg_congr n k.1).mul_right ((x.1.val : ℤ))
    rw [show (-k : ZMod n × ZMod m).1 = -k.1 from rfl]
    calc (-((k.1.val : ℤ) * x.1.val)) = (-(k.1.val : ℤ)) * x.1.val := by ring
      _ ≡ ((-k.1).val : ℤ) * x.1.val [ZMOD n] := this.symm
  · apply echar_congr
    have := (val_neg_congr m k.2).mul_right ((x.2.val : ℤ))
    rw [show (-k : ZMod n × ZMod m).2 = -k.2 from rfl]
    calc (-((k.2.val : ℤ) * x.2.val)) = (-(k.2.val : ℤ)) * x.2.val := by ring
      _ ≡ ((-k.2).val : ℤ) * x.2.val [ZMOD m] := this.symm

/-- Helper: the inverse DFT of a real, even spectrum is real: it equals its
own conjugate. -/
theorem ifftC_real_of_even {n m : ℕ} [NeZero n] [NeZero m]
    (g : ZMod n × ZMod m → ℝ) (hg : ∀ k, g (-k) = g k) (x : ZMod n × ZMod m) :
    ((ifftC (fun k => (g k : ℂ)) x).re : ℂ) = ifftC (fun k => (g k : ℂ)) x := by
  rw [← Complex.conj_eq_iff_re]
  unfold ifftC
  rw [map_mul]
  congr 1
  · exact Complex.conj_ofReal _
  · rw [map_sum]
    have h1 : ∀ k : ZMod n × ZMod m,
        (starRingEnd ℂ) ((g k : ℂ) * ch k x) = (g k : ℂ) * ch (-k) x := by
      intro k
      rw [map_mul, Complex.conj_ofReal, conj_ch]
    rw [Finset.sum_congr rfl (fun k _ => h1 k)]
    apply Fintype.sum_equiv (Equiv.neg (ZMod n × ZMod m))
    intro k
    show (g k : ℂ) * ch (-k) x = (g (-k) : ℂ) * ch (-k) x
    rw [← hg k]

/-- Helper: real part of an inverse DFT of a real spectrum. -/
theorem ifftC_re {n m : ℕ} [NeZero n] [NeZero m] (g : ZMod n × ZMod m → ℝ)
    (x : ZMod n × ZMod m) :
    (ifftC (fun k => (g k : ℂ)) x).re = nfac n m * ∑ k, g k * (ch k x).re := by
  unfold ifftC
  rw [Complex.re_ofReal_mul, Complex.re_sum]
  congr 1
  apply Finset.sum_congr rfl
  intro k _
  rw [Complex.re_ofReal_mul]

/-- Helper: the inverse DFT of a real spectrum evaluated at pixel zero sums
the spectrum. -/
theorem ifftC_re_zero {n m : ℕ} [NeZero n] [NeZero m] (g : ZMod n × ZMod m → ℝ) :
    (ifftC (fun k => (g k : ℂ)) 0).re = nfac n m * ∑ k, g k := by
  rw [ifftC_re]
  congr 1
  apply Finset.sum_congr rfl
  intro k _
  rw [ch_zero]
  simp

/-- Helper: a nonnegative real spectrum gives an inverse DFT whose real part
peaks at pixel zero. -/
theorem ifftC_re_le_zero {n m : ℕ} [NeZero n] [NeZero m] (g : ZMod n × ZMod m → ℝ)
    (hg : ∀ k, 0 ≤ g k) (x : ZMod n × ZMod m) :
    (ifftC (fun k => (g k : ℂ)) x).re ≤ (ifftC (fun k => (g k : ℂ)) 0).re := by
  rw [ifftC_re, ifftC_re_zero]
  have hnf : 0 ≤ nfac n m := by
    unfold nfac
    positivity
  apply mul_le_mul_of_nonneg_left _ hnf
  apply Finset.sum_le_sum
  intro k _
  calc g k * (ch k x).re ≤ g k * 1 :=
        mul_le_mul_of_nonneg_left (ch_re_le_one k x) (hg k)
    _ = g k := mul_one _

/-- Helper: the DFT divides through by a constant. -/
theorem fftC_div_const {n m : ℕ} [NeZero n] [NeZero m] (f : ZMod n × ZMod m → ℂ)
    (c : ℂ) (k : ZMod n × ZMod m) :
    fftC (fun x => f x / c) k = fftC f k / c := by
  unfold fftC
  rw [mul_div_assoc, Finset.sum_div]
  congr 1
  apply Finset.sum_congr rfl
  intro x _
  ring

/-- Helper: the DFT of the unit-peak beam template is the beam transform
divided by the real-space peak value. -/
theorem fftC_beam_template {n m : ℕ} [NeZero n] [NeZero m]
    (beam2d : ZMod n × ZMod m → ℝ) (hsym : ∀ k, beam2d (-k) = beam2d k)
    (j : ZMod n × ZMod m) :
    fftC (fun x => ((beam_template beam2d x : ℝ) : ℂ)) j =
      (beam2d j : ℂ) / ((beamIfft beam2d 0).re : ℂ) := by
  have hfun : (fun x => ((beam_template beam2d x : ℝ) : ℂ)) =
      fun x => ifftC (fun k => (beam2d k : ℂ)) x / ((beamIfft beam2d 0).re : ℂ) := by
    funext x
    unfold beam_template
    rw [Complex.ofReal_div]
    congr 1
    unfold beamIfft
    exact ifftC_real_of_even beam2d hsym x
  rw [hfun, fftC_div_const, fftC_ifftC]

/-- Helper: filter_norm equals the beam-weighted spectral sum divided by the
real-space beam peak. -/
theorem filter_norm_eq {n m : ℕ} [NeZero n] [NeZero m]
    (ps beam2d : ZMod n × ZMod m → ℝ) (hsym : ∀ k, beam2d (-k) = beam2d k) :
    filter_norm ps beam2d =
      (nfac n m * ∑ j, beam2d j ^ 2 / ps j) / (beamIfft beam2d 0).re := by
  unfold filter_norm
  have hfun : (fun j => fftC (fun x => ((beam_template beam2d x : ℝ) : ℂ)) j *
      ((beam2d j / ps j : ℝ) : ℂ)) =
      fun j => (((beam2d j ^ 2 / ps j) / (beamIfft beam2d 0).re : ℝ) : ℂ) := by
    funext j
    rw [fftC_beam_template beam2d hsym j, div_mul_eq_mul_div]
    push_cast
    ring
  rw [hfun, ifftC_re_zero (fun j => (beam2d j ^ 2 / ps j) / (beamIfft beam2d 0).re)]
  rw [← Finset.sum_div, mul_div_assoc]

/-- Helper: the spectral normalization sum is positive for a positive power
spectrum and a beam that is not identically zero. -/
theorem spec_sum_pos {n m : ℕ} [NeZero n] [NeZero m]
    (ps beam2d : ZMod n × ZMod m → ℝ) (hps : ∀ k, 0 < ps k)
    (hnz : ∃ k, beam2d k ≠ 0) :
    0 < nfac n m * ∑ j, beam2d j ^ 2 / ps j := by
  have hn : (0 : ℝ) < n := by exact_mod_cast Nat.pos_of_ne_zero (NeZero.ne n)
  have hm : (0 : ℝ) < m := by exact_mod_cast Nat.pos_of_ne_zero (NeZero.ne m)
  have hnf : 0 < nfac n m := by
    unfold nfac
    exact inv_pos.mpr (Real.sqrt_pos.mpr (mul_pos hn hm))
  have hsum : 0 < ∑ j : ZMod n × ZMod m, beam2d j ^ 2 / ps j := by
    obtain ⟨k0, hk0⟩ := hnz
    apply Finset.sum_pos'
    · intro j _
      exact div_nonneg (sq_nonneg _) (hps j).le
    · have h2 : beam2d k0 ^ 2 ≠ 0 := pow_ne_zero 2 hk0
      exact ⟨k0, Finset.mem_univ k0,
        div_pos (lt_of_le_of_ne (sq_nonneg _) (Ne.symm h2)) (hps k0)⟩
  exact mul_pos hnf hsum

/-- Helper: the filtered template is the inverse DFT of the normalized
nonnegative spectrum `(B²/P) / S`. -/
theorem filtered_template_eq {n m : ℕ} [NeZero n] [NeZero m]
    (ps beam2d : ZMod n × ZMod m → ℝ) (hps : ∀ k, 0 < ps k)
    (hsym : ∀ k, beam2d (-k) = beam2d k)
    (hpeak : (beamIfft beam2d 0).re ≠ 0) (hnz : ∃ k, beam2d k ≠ 0)
    (x : ZMod n × ZMod m) :
    filtered_template ps beam2d x =
      (ifftC (fun j => (((beam2d j ^ 2 / ps j) /
        (nfac n m * ∑ i, beam2d i ^ 2 / ps i) : ℝ) : ℂ)) x).re := by
  have hS := spec_sum_pos ps beam2d hps hnz
  unfold filtered_template
  have hfun : (fun j => fftC (fun y => ((beam_template beam2d y : ℝ) : ℂ)) j *
      ((build_filter ps beam2d j : ℝ) : ℂ)) =
      fun j => (((beam2d j ^ 2 / ps j) /
        (nfac n m * ∑ i, beam2d i ^ 2 / ps i) : ℝ) : ℂ) := by
    funext j
    rw [fftC_beam_template beam2d hsym j]
    unfold build_filter
    rw [filter_norm_eq ps beam2d hsym]
    have hpj : ps j ≠ 0 := ne_of_gt (hps j)
    have hSne : (nfac n m * ∑ i, beam2d i ^ 2 / ps i) ≠ 0 := ne_of_gt hS
    rw [← Complex.ofReal_div, ← Complex.ofReal_mul]
    congr 1
    field_simp
    ring
  rw [hfun]

/-- C1: for every everywhere-positive noise power spectrum `ps` and every
even, not identically vanishing beam transform `beam2d` with a nonzero
real-space peak, the beam template is normalized to value 1 at its peak
pixel, and convolving it by the filter returned by `build_filter` yields a
map whose peak value equals exactly 1 (attained at pixel zero). -/
theorem C1_filter_normalization {n m : ℕ} [NeZero n] [NeZero m]
    (ps beam2d : ZMod n × ZMod m → ℝ)
    (hps : ∀ k, 0 < ps k) (hsym : ∀ k, beam2d (-k) = beam2d k)
    (hpeak : (beamIfft beam2d 0).re ≠ 0) (hnz : ∃ k, beam2d k ≠ 0) :
    beam_template beam2d 0 = 1 ∧
    IsGreatest (Set.range (filtered_template ps beam2d)) 1 := by
  have hS := spec_sum_pos ps beam2d hps hnz
  have hft : ∀ x, filtered_template ps beam2d x =
      (ifftC (fun j => (((beam2d j ^ 2 / ps j) /
        (nfac n m * ∑ i, beam2d i ^ 2 / ps i) : ℝ) : ℂ)) x).re :=
    fun x => filtered_template_eq ps beam2d hps hsym hpeak hnz x
  have hq0 : ∀ j : ZMod n × ZMod m,
      0 ≤ (beam2d j ^ 2 / ps j) / (nfac n m * ∑ i, beam2d i ^ 2 / ps i) :=
    fun j => div_nonneg (div_nonneg (sq_nonneg _) (hps j).le) hS.le
  have h0 : filtered_template ps beam2d 0 = 1 := by
    rw [hft 0, ifftC_re_zero (fun j => (beam2d j ^ 2 / ps j) /
      (nfac n m * ∑ i, beam2d i ^ 2 / ps i))]
    rw [← Finset.sum_div, ← mul_div_assoc]
    exact div_self (ne_of_gt hS)
  refine ⟨div_self hpeak, ⟨0, h0⟩, ?_⟩
  rintro y ⟨x, rfl⟩
  rw [hft x]
  calc (ifftC (fun j => (((beam2d j ^ 2 / ps j) /
        (nfac n m * ∑ i, beam2d i ^ 2 / ps i) : ℝ) : ℂ)) x).re
      ≤ (ifftC (fun j => (((beam2d j ^ 2 / ps j) /
        (nfac n m * ∑ i, beam2d i ^ 2 / ps i) : ℝ) : ℂ)) 0).re :=
        ifftC_re_le_zero (fun j => (beam2d j ^ 2 / ps j) /
          (nfac n m * ∑ i, beam2d i ^ 2 / ps i)) hq0 x
    _ = filtered_template ps beam2d 0 := (hft 0).symm
    _ = 1 := h0

/-- Witness for C1 on the 1×1 grid with a flat unit power spectrum and a unit
beam transform: the beam template and the peak of the filtered template are
both exactly 1. -/
theorem C1_filter_normalization_witness :
    beam_template (fun _ : ZMod 1 × ZMod 1 => (1:ℝ)) 0 = 1 ∧
    IsGreatest (Set.range (filtered_template (fun _ : ZMod 1 × ZMod 1 => (1:ℝ))
      (fun _ : ZMod 1 × ZMod 1 => (1:ℝ)))) 1 := by
  apply C1_filter_normalization
  · intro k
    norm_num
  · intro k
    rfl
  · have h : (beamIfft (fun _ : ZMod 1 × ZMod 1 => (1:ℝ)) 0).re = 1 := by
      unfold beamIfft
      rw [ifftC_re_zero (fun _ : ZMod 1 × ZMod 1 => (1:ℝ))]
      rw [Finset.sum_const]
      simp [nfac, Finset.card_univ, Fintype.card_prod, ZMod.card]
    rw [h]
    norm_num
  · exact ⟨0, one_ne_zero⟩

/-- Witness for C3: two sources at declination 0 (equal cosine), where the
amended symmetry theorem applies. -/
theorem C3_symm_eq_cos_witness :
    Real.cos (posDec [((0 : ℝ), (0 : ℝ)), ((0 : ℝ), (1 : ℝ))] 0) =
      Real.cos (posDec [((0 : ℝ), (0 : ℝ)), ((0 : ℝ), (1 : ℝ))] 1) ∧
    (corrNeighbor [((0 : ℝ), (0 : ℝ)), ((0 : ℝ), (1 : ℝ))] 2 0 1 ↔
      corrNeighbor [((0 : ℝ), (0 : ℝ)), ((0 : ℝ), (1 : ℝ))] 2 1 0) :=
  ⟨rfl, C3_symm_eq_cos [((0 : ℝ), (0 : ℝ)), ((0 : ℝ), (1 : ℝ))] 2 0 1 rfl⟩

end Dory
